import Mathlib

/-!
# Verification of the Hybrid Retrieval & Answer-Grounding Engine

A shallow embedding of the retrieval-fusion, citation-extraction and
confidence-scoring core of the repository (files `src/vector_store.py` and
`src/rag_chain.py`), together with theorems settling the frozen claims about
its specification.

Modelling conventions:
* Python floats are modelled exactly by rationals (`ℚ`).
* Python dicts (insertion ordered) are modelled by association lists.
* `numpy.argsort` is modelled as the stable ascending argsort: indices ordered
  by score, ties by ascending index.  Python stable `sorted` with a key and
  `reverse=True` is modelled by `List.mergeSort` with the reversed comparison,
  which is stable in the same way.
* External collaborators (the embedding store, the BM25 scoring library, the
  language model) are abstract parameters; the repository code that calls them
  is embedded faithfully.
-/

namespace RagAi

/-! ## The embedded program and its specification-side counterparts -/

/-- A retrievable chunk with its provenance metadata, mirroring the
`langchain` `Document` objects used by the source (`page_content` plus the
metadata keys the engine reads: `filename`, `page`, `section`). -/
structure Doc where
  page_content : String
  filename : Option String := none
  page : Option Nat := none
  sec : Option String := none
deriving DecidableEq, Repr, Inhabited

/-- Python `max(scores)` with the source's fallback default
(`max(scores) if scores else dflt`). -/
def pyMax (l : List ℚ) (dflt : ℚ) : ℚ :=
  match l with
  | [] => dflt
  | x :: xs => xs.foldl max x

/-- Python `min(scores)` with the source's fallback default. -/
def pyMin (l : List ℚ) (dflt : ℚ) : ℚ :=
  match l with
  | [] => dflt
  | x :: xs => xs.foldl min x

/-- `normalize_scores` from `vector_store.py` (the helper defined inside
`HybridRetriever.hybrid_search`, lines 243-257): linear min-max rescaling with
the degenerate-range guard (`score_range = 1.0` when all scores coincide). -/
def normalize_scores (results : List (Doc × ℚ)) : List (Doc × ℚ) :=
  match results with
  | [] => []
  | _ :: _ =>
    let scores := results.map (fun p => p.2)
    let max_score := pyMax scores 1
    let min_score := pyMin scores 0
    let score_range := if max_score ≠ min_score then max_score - min_score else 1
    results.map (fun p => (p.1, (p.2 - min_score) / score_range))

/-- The BM25 scoring structure built by the external `rank_bm25` library:
all the repository reads from it is a score array per (tokenized) query. -/
structure BM25Index where
  getScores : String → List ℚ

/-- The retriever state of `HybridRetriever`: the document list captured by
`_update_bm25_index` and the optional BM25 index (`None` when the corpus was
empty at build time). -/
structure HybridRetriever where
  documents : List Doc
  bm25 : Option BM25Index

/-- The comparison realising the stable ascending argsort used to model
`np.argsort`: by score, ties by ascending position. -/
def argsortLe (scores : List ℚ) (i j : Nat) : Bool :=
  decide (scores.getD i 0 < scores.getD j 0 ∨
    (scores.getD i 0 = scores.getD j 0 ∧ i ≤ j))

/-- Model of `np.argsort(scores)`: the stable ascending argsort of the score
array (ties resolved towards the smaller index, as numpy's sort does on the
small arrays arising here). -/
def argsortAsc (scores : List ℚ) : List Nat :=
  (List.range scores.length).mergeSort (argsortLe scores)

/-- `np.argsort(scores)[::-1][:k]` from `bm25_search` (line 211). -/
def bm25_top_indices (scores : List ℚ) (k : Nat) : List Nat :=
  ((argsortAsc scores).reverse).take k

/-- `HybridRetriever.bm25_search` (`vector_store.py` lines 191-218): empty
result when the index is unbuilt, otherwise the top-`k` indices by descending
score, keeping only strictly positive scores. -/
def bm25_search (r : HybridRetriever) (query : String) (k : Nat) :
    List (Doc × ℚ) :=
  match r.bm25 with
  | none => []
  | some idx =>
    let scores := idx.getScores query
    (bm25_top_indices scores k).filterMap (fun i =>
      if 0 < scores.getD i 0 then
        some (r.documents.getD i default, scores.getD i 0)
      else none)

/-- One value of the insertion-ordered `combined_scores` dict of
`hybrid_search`: the text key, the stored document and the running score. -/
structure CombinedEntry where
  key : String
  doc : Doc
  score : ℚ
deriving DecidableEq, Repr

/-- `combined_scores[doc_key] = dict(doc=doc, score=s)` — unconditional dict
assignment: overwrite in place if the key is present (keeping its position),
otherwise append. -/
def dictSet (acc : List CombinedEntry) (d : Doc) (s : ℚ) : List CombinedEntry :=
  if acc.any (fun e => e.key == d.page_content) then
    acc.map (fun e => if e.key == d.page_content then ⟨e.key, d, s⟩ else e)
  else acc ++ [⟨d.page_content, d, s⟩]

/-- The second fusion loop's dict update: add to the running score if the key
is present, otherwise append a fresh entry. -/
def dictAdd (acc : List CombinedEntry) (d : Doc) (s : ℚ) : List CombinedEntry :=
  if acc.any (fun e => e.key == d.page_content) then
    acc.map (fun e =>
      if e.key == d.page_content then ⟨e.key, e.doc, e.score + s⟩ else e)
  else acc ++ [⟨d.page_content, d, s⟩]

/-- The `combined_scores` dict after both fusion loops of `hybrid_search`
(lines 260-277), built from the already-normalized candidate lists. -/
def combineScores (vec bm : List (Doc × ℚ)) (alpha : ℚ) : List CombinedEntry :=
  let step1 := vec.foldl (fun acc p => dictSet acc p.1 (alpha * p.2)) []
  bm.foldl (fun acc p => dictAdd acc p.1 ((1 - alpha) * p.2)) step1

/-- Python `sorted(..., key=lambda x: x.score, reverse=True)`: stable
descending sort by score. -/
def sortByScoreDesc (l : List CombinedEntry) : List CombinedEntry :=
  l.mergeSort (fun a b => decide (b.score ≤ a.score))

/-- The pure fusion core of `HybridRetriever.hybrid_search` (lines 242-287),
taking the two raw candidate lists as inputs: normalize each independently,
build the combined dict, sort by combined score descending (stable), return
the top-`k` as (document, score) pairs. -/
def hybrid_search_fuse (vec bm : List (Doc × ℚ)) (k : Nat) (alpha : ℚ) :
    List (Doc × ℚ) :=
  let v := normalize_scores vec
  let b := normalize_scores bm
  let sorted := sortByScoreDesc (combineScores v b alpha)
  (sorted.take k).map (fun e => (e.doc, e.score))

/-- The external embedding store: `similarity_search_with_relevance_scores`
is abstracted as a function from query and `k` to a scored list. -/
structure VectorStoreM where
  search : String → Nat → List (Doc × ℚ)

/-- `VectorStore.similarity_search` (`vector_store.py` lines 69-100): the
store's results filtered by the configured similarity floor. -/
def similarity_search (vs : VectorStoreM) (query : String) (k : Nat)
    (threshold : ℚ) : List (Doc × ℚ) :=
  (vs.search query k).filter (fun p => threshold ≤ p.2)

/-- `HybridRetriever.hybrid_search` (lines 220-287): over-fetch `2k`
candidates from each ranker, then fuse. -/
def hybrid_search (vs : VectorStoreM) (r : HybridRetriever) (query : String)
    (k : Nat) (alpha : ℚ) (threshold : ℚ) : List (Doc × ℚ) :=
  hybrid_search_fuse (similarity_search vs query (k * 2) threshold)
    (bm25_search r query (k * 2)) k alpha

/-- The ASCII apostrophe, used to build the source's string literals without
a literal quote character. -/
def apos : String := String.singleton (Char.ofNat 39)

/-- The `Citation` dataclass of `rag_chain.py` (`section` is kept as `sec`
since `section` is a Lean keyword). -/
structure Citation where
  source : String
  page : Option Nat := none
  sec : Option String := none
  chunk_text : String := ""
deriving DecidableEq, Repr

/-- The `RAGResponse` dataclass. -/
structure RAGResponse where
  answer : String
  citations : List Citation
  confidence : ℚ
  retrieved_chunks : List Doc
deriving DecidableEq, Repr

/-- The refusal prefix `"i don't have"` checked by `_calculate_confidence`. -/
def refusalPrefix : String := "i don" ++ apos ++ "t have"

/-- Python `str.lower()` (per-character lowering; the engine only ever sees
ASCII here). -/
def pyLower (s : String) : String := String.mk (s.toList.map Char.toLower)

/-- Python `str.startswith(pre)` as a character-list prefix test. -/
def pyStartsWith (pre s : String) : Bool := pre.toList.isPrefixOf s.toList

/-- `RAGChain._calculate_confidence` (`rag_chain.py` lines 165-197). -/
def calculate_confidence (answer : String) (retrieved_docs : List (Doc × ℚ))
    (citations : List Citation) : ℚ :=
  if answer = "" ∨ pyStartsWith refusalPrefix (pyLower answer) then 0
  else
    let avg_score : ℚ :=
      if retrieved_docs.isEmpty then 0
      else (retrieved_docs.map (fun p => p.2)).sum / retrieved_docs.length
    let citation_factor : ℚ := min ((citations.length : ℚ) / 3) 1
    let length_factor : ℚ := min ((answer.length : ℚ) / 200) 1
    let confidence := (1 / 2 : ℚ) * avg_score + (3 / 10 : ℚ) * citation_factor
      + (1 / 5 : ℚ) * length_factor
    min (max confidence 0) 1

/-- A successfully parsed citation marker. -/
structure Marker where
  source : String
  page : Option Nat
  sec : Option String
deriving DecidableEq, Repr

/-- Match a literal character sequence, returning the rest of the input. -/
def expectPrefix : List Char → List Char → Option (List Char)
  | [], cs => some cs
  | _ :: _, [] => none
  | p :: ps, c :: cs => if c = p then expectPrefix ps cs else none

/-- Model of the regex whitespace class applied greedily (Python matches a
slightly larger Unicode class; the engine only ever sees ASCII here). -/
def dropWs (cs : List Char) : List Char := cs.dropWhile Char.isWhitespace

/-- Python `str.strip()`: drop leading and trailing whitespace. -/
def stripWs (cs : List Char) : List Char :=
  ((cs.dropWhile Char.isWhitespace).reverse.dropWhile Char.isWhitespace).reverse

/-- Digits to the natural number `int()` produces. -/
def digitsToNat (ds : List Char) : Nat :=
  ds.foldl (fun n c => n * 10 + (c.toNat - 48)) 0

/-- The optional `, Page: <digits>` group. -/
def parsePageGroup (cs : List Char) : Option (Nat × List Char) :=
  match cs with
  | [] => none
  | c :: rest =>
    if c = Char.ofNat 44 then
      match expectPrefix "Page:".toList (dropWs rest) with
      | none => none
      | some rest2 =>
        let rest3 := dropWs rest2
        let digits := rest3.takeWhile Char.isDigit
        if digits.isEmpty then none
        else some (digitsToNat digits, rest3.drop digits.length)
    else none

/-- The optional `, Section: <text>` group; the capture is the maximal run of
characters other than the closing bracket, stripped like the source's
`.strip()`. -/
def parseSectionGroup (cs : List Char) : Option (String × List Char) :=
  match cs with
  | [] => none
  | c :: rest =>
    if c = Char.ofNat 44 then
      match expectPrefix "Section:".toList (dropWs rest) with
      | none => none
      | some rest2 =>
        let run := rest2.takeWhile (fun ch => ch ≠ Char.ofNat 93)
        if run.isEmpty then none
        else some (String.mk (stripWs run), rest2.drop run.length)
    else none

/-- Attempt the full marker pattern at the current position.  The source
capture is the maximal run of characters that are neither a comma nor a
closing bracket (regex `\s*([^,\x5d]+)` followed by the source's
`.strip()`). -/
def tryMatch (cs : List Char) : Option (Marker × List Char) :=
  match expectPrefix "[Source:".toList cs with
  | none => none
  | some rest =>
    let run := rest.takeWhile (fun ch => ch ≠ Char.ofNat 44 ∧ ch ≠ Char.ofNat 93)
    if run.isEmpty then none
    else
      let source := String.mk (stripWs run)
      let rest2 := rest.drop run.length
      let pageStep : Option Nat × List Char :=
        match parsePageGroup rest2 with
        | some pr => (some pr.1, pr.2)
        | none => (none, rest2)
      let secStep : Option String × List Char :=
        match parseSectionGroup pageStep.2 with
        | some sr => (some sr.1, sr.2)
        | none => (none, pageStep.2)
      match secStep.2 with
      | [] => none
      | c :: rest5 =>
        if c = Char.ofNat 93 then some (⟨source, pageStep.1, secStep.1⟩, rest5)
        else none

/-- The `re.finditer` scan, fuel-indexed by the input length. -/
def scanMarkers : Nat → List Char → List Marker
  | 0, _ => []
  | _ + 1, [] => []
  | fuel + 1, c :: rest =>
    match tryMatch (c :: rest) with
    | some (m, rest2) => m :: scanMarkers fuel rest2
    | none => scanMarkers fuel rest

/-- All citation markers of an answer, in order of appearance. -/
def findMarkers (answer : String) : List Marker :=
  scanMarkers answer.toList.length answer.toList

/-- The excerpt lookup of `_extract_citations` (lines 148-154): the first
retrieved document whose `filename` metadata equals the cited source and,
when a page was cited, whose `page` metadata equals it; its text is previewed
to 200 characters. -/
def excerptFor (retrieved_docs : List Doc) (source : String)
    (page : Option Nat) : String :=
  match retrieved_docs.find? (fun d =>
      d.filename == some source && (page.isNone || d.page == page)) with
  | some d => (d.page_content.take 200) ++ "..."
  | none => ""

/-- `RAGChain._extract_citations` (`rag_chain.py` lines 126-163): iterate the
matches in order, appending one `Citation` per match. -/
def extract_citations (answer : String) (retrieved_docs : List Doc) :
    List Citation :=
  (findMarkers answer).foldl (fun citations m =>
    citations ++
      [⟨m.source, m.page, m.sec, excerptFor retrieved_docs m.source m.page⟩]) []

/-- A conversation history entry (`HumanMessage` / `AIMessage`). -/
inductive Msg where
  | human (content : String)
  | ai (content : String)
deriving DecidableEq, Repr

/-- The search mode string of `RAGChain.query`. -/
inductive SearchMode where
  | hybrid
  | vector
  | keyword
deriving DecidableEq, Repr

/-- The environment `RAGChain.query` runs in: the three retrieval backends
(already specialised to the configured `k`), the external generator
(receiving the history actually passed, the retrieved evidence from which the
context string is formatted, and the question), and the memory flag.  The
context formatting and prompt assembly between retrieval and generation are
part of the abstract generator boundary: no claim constrains the context
string itself. -/
structure QueryEnv where
  hybridSearch : String → List (Doc × ℚ)
  vectorSearch : String → List (Doc × ℚ)
  keywordSearch : String → List (Doc × ℚ)
  generate : List Msg → List (Doc × ℚ) → String → String
  memoryEnabled : Bool

/-- The retrieval dispatch at the top of `RAGChain.query` (lines 216-221). -/
def selectRetrieve (env : QueryEnv) (mode : SearchMode) (question : String) :
    List (Doc × ℚ) :=
  match mode with
  | .hybrid => env.hybridSearch question
  | .vector => env.vectorSearch question
  | .keyword => env.keywordSearch question

/-- The stock no-relevant-information answer (line 225). -/
def noInfoAnswer : String :=
  "I couldn" ++ apos ++
    "t find any relevant information in the documents to answer this question."

/-- The conversation-history update of `RAGChain.query` (lines 258-265):
append the user question and the assistant answer, then keep only the last
10 entries. -/
def updateHistory (memoryEnabled : Bool) (h : List Msg) (q a : String) :
    List Msg :=
  if memoryEnabled then
    let h2 := h ++ [Msg.human q, Msg.ai a]
    if 10 < h2.length then h2.drop (h2.length - 10) else h2
  else h

/-- The observable outcome of one `RAGChain.query` call: the response, the
updated conversation history, and an instrumentation trace of the retrieval
invocations (one entry per search call, holding the question passed) and the
number of generator invocations. -/
structure QueryTrace where
  response : RAGResponse
  history2 : List Msg
  retrievalCalls : List String
  generatorCalls : Nat

/-- `RAGChain.query` (`rag_chain.py` lines 199-272).  The body performs
retrieval unconditionally (there is no input validation), short-circuits to
the fixed no-results response when retrieval is empty (skipping generation
and the history update), and otherwise generates, extracts citations, scores
confidence and updates the history. -/
def query (env : QueryEnv) (history : List Msg) (question : String)
    (use_conversation_history : Bool) (mode : SearchMode) : QueryTrace :=
  let retrieved := selectRetrieve env mode question
  if retrieved.isEmpty then
    { response := ⟨noInfoAnswer, [], 0, []⟩
      history2 := history
      retrievalCalls := [question]
      generatorCalls := 0 }
  else
    let chat_history :=
      if use_conversation_history && env.memoryEnabled then history else []
    let answer := env.generate chat_history retrieved question
    let docs_only := retrieved.map (fun p => p.1)
    let citations := extract_citations answer docs_only
    let confidence := calculate_confidence answer retrieved citations
    { response := ⟨answer, citations, confidence, docs_only⟩
      history2 := updateHistory env.memoryEnabled history question answer
      retrievalCalls := [question]
      generatorCalls := 1 }

/-- Iterate `query` over a list of questions, also accumulating the full
(untruncated) transcript of user/assistant entries, for reasoning about
history truncation over several round trips. -/
def runQueries (env : QueryEnv) (uh : Bool) (mode : SearchMode) :
    List String → List Msg → List Msg × List Msg
  | [], h => (h, [])
  | q :: qs, h =>
    let t := query env h q uh mode
    let rest := runQueries env uh mode qs t.history2
    (rest.1, [Msg.human q, Msg.ai t.response.answer] ++ rest.2)

/-- The confidence formula as the claim words it: 0.5 times the mean of the
evidence relevance scores (0 if no evidence) plus 0.3 times
min(citation_count / 3, 1) plus 0.2 times min(answer_length / 200, 1),
clamped to [0,1]; forced to 0 when the answer is empty or its lowercased text
begins with the refusal phrase. -/
def confidence_spec (answer : String) (retrieved_docs : List (Doc × ℚ))
    (citations : List Citation) : ℚ :=
  if answer = "" ∨ pyStartsWith refusalPrefix (pyLower answer) then 0
  else
    let retrieval_quality : ℚ :=
      if retrieved_docs = [] then 0
      else (retrieved_docs.map (fun p => p.2)).sum / retrieved_docs.length
    let density : ℚ := min ((citations.length : ℚ) / 3) 1
    let substance : ℚ := min ((answer.length : ℚ) / 200) 1
    let c := (5 / 10 : ℚ) * retrieval_quality + (3 / 10 : ℚ) * density
      + (2 / 10 : ℚ) * substance
    if c < 0 then 0 else if 1 < c then 1 else c

/-- The spec's cross-referencing rule, worded independently: a chunk matches
a marker when its filename metadata is identical to the cited source and,
when a page was cited, its page metadata is identical to the cited page. -/
def chunkMatches (d : Doc) (m : Marker) : Prop :=
  d.filename = some m.source ∧ (m.page = none ∨ d.page = m.page)

instance (d : Doc) (m : Marker) : Decidable (chunkMatches d m) := by
  unfold chunkMatches
  infer_instance

/-- The excerpt as the spec words it: the first matching chunk in evidence
order supplies a bounded 200-character preview; no match leaves it empty. -/
def excerpt_spec (evidence : List Doc) (m : Marker) : String :=
  match evidence.find? (fun d => decide (chunkMatches d m)) with
  | some d => d.page_content.take 200 ++ "..."
  | none => ""

/-- A stub chunk for concrete environments. -/
def stubDoc : Doc :=
  ⟨"The mitochondria is the powerhouse of the cell.", some "bio.txt", none, none⟩

/-- A concrete environment whose every retrieval is empty (memory enabled). -/
def envEmpty : QueryEnv :=
  ⟨fun _ => [], fun _ => [], fun _ => [], fun _ _ _ => "", true⟩

/-- A concrete environment whose every retrieval returns the stub chunk
(memory enabled, constant generator). -/
def envStub : QueryEnv :=
  ⟨fun _ => [(stubDoc, 1)], fun _ => [(stubDoc, 1)], fun _ => [(stubDoc, 1)],
    fun _ _ _ => "stub answer", true⟩

/-- The most recent 10 entries of a history (a suffix: oldest entries are
dropped first and nothing is reordered). -/
def lastTen (l : List Msg) : List Msg := l.drop (l.length - 10)

/-- The two-chunk corpus whose BM25 scores tie. -/
def bmDoc0 : Doc := ⟨"d0", none, none, none⟩

/-- Second chunk of the tie corpus. -/
def bmDoc1 : Doc := ⟨"d1", none, none, none⟩

/-- A retriever whose BM25 index scores both corpus chunks equally. -/
def tieRetriever : HybridRetriever :=
  ⟨[bmDoc0, bmDoc1], some ⟨fun _ => [1, 1]⟩⟩

/-- The text key under which fusion deduplicates a scored chunk. -/
def keyOf (p : Doc × ℚ) : String := p.1.page_content

/-- The normalized score a list assigns to a text key, 0 when the key does
not appear (the spec's "a missing appearance contributes 0"). -/
def normLookup (l : List (Doc × ℚ)) (key : String) : ℚ :=
  match l.find? (fun p => p.1.page_content == key) with
  | some p => p.2
  | none => 0

/-- The chunk under which a fused key is first encountered (semantic list
scanned before lexical list). -/
def docFirst (v b : List (Doc × ℚ)) (key : String) : Doc :=
  match (v ++ b).find? (fun p => p.1.page_content == key) with
  | some p => p.1
  | none => default

/-- The union of the two candidate lists, deduplicated by text, in
first-encountered order (semantic before lexical). -/
def fusionKeys (v b : List (Doc × ℚ)) : List String :=
  v.map keyOf ++ (b.map keyOf).filter (fun t => decide (t ∉ v.map keyOf))

/-- The hybrid fusion as the claim words it: for every chunk of the
deduplicated union, combined = alpha * semantic_norm + (1-alpha) *
lexical_norm with a missing appearance contributing 0; result is the top-k
by combined score, ties broken by first-encountered order. -/
def hybrid_search_spec (vec bm : List (Doc × ℚ)) (k : Nat) (alpha : ℚ) :
    List (Doc × ℚ) :=
  let v := normalize_scores vec
  let b := normalize_scores bm
  let entries : List CombinedEntry := (fusionKeys v b).map (fun key =>
    ⟨key, docFirst v b key,
      alpha * normLookup v key + (1 - alpha) * normLookup b key⟩)
  ((sortByScoreDesc entries).take k).map (fun e => (e.doc, e.score))

/-- A one-chunk store for the C1 witness. -/
def vsOne : VectorStoreM := ⟨fun _ _ => [(stubDoc, 1)]⟩

/-- First chunk of the fusion tie corpus. -/
def docA : Doc := ⟨"A", none, none, none⟩

/-- Second chunk of the fusion tie corpus. -/
def docB : Doc := ⟨"B", none, none, none⟩

/-- Semantic store for the C9 counterexample: `A` then `B`. -/
def vsC : VectorStoreM := ⟨fun _ _ => [(docA, 9 / 10), (docB, 8 / 10)]⟩

/-- Lexical retriever for the C9 counterexample: corpus `A`, `B` with equal
BM25 scores, so `bm25_search` returns `B` then `A`. -/
def rC : HybridRetriever := ⟨[docA, docB], some ⟨fun _ => [5, 5]⟩⟩

/-- Semantic store for the zero-score-eligibility example. -/
def vs10 : VectorStoreM := ⟨fun _ _ => [(docA, 10), (docB, 5)]⟩

/-- An empty retriever (unbuilt lexical index). -/
def rEmptyR : HybridRetriever := ⟨[], none⟩

/-- A chunk with the same text as `docA` but different metadata. -/
def docA2 : Doc := ⟨"A", some "other.pdf", none, none⟩

/-- A store with no semantic results. -/
def vsEmptyV : VectorStoreM := ⟨fun _ _ => []⟩

/-- A retriever whose corpus holds two chunks with identical text (`A`)
tying on BM25 score, plus a low-scoring distinct chunk. -/
def r10 : HybridRetriever :=
  ⟨[docB, docA, docA2], some ⟨fun _ => [1, 5, 5]⟩⟩

/-! ## Lemmas and claim theorems -/

lemma foldl_max_le_spec (a : ℚ) (l : List ℚ) :
    a ≤ l.foldl max a ∧ ∀ x ∈ l, x ≤ l.foldl max a := by
  induction l generalizing a with
  | nil => exact ⟨le_refl a, by simp⟩
  | cons b t ih =>
    simp only [List.foldl_cons]
    refine ⟨le_trans (le_max_left a b) (ih (max a b)).1, ?_⟩
    intro x hx
    rcases List.mem_cons.mp hx with h | h
    · subst h
      exact le_trans (le_max_right a x) (ih (max a x)).1
    · exact (ih (max a b)).2 x h

lemma foldl_min_le_spec (a : ℚ) (l : List ℚ) :
    l.foldl min a ≤ a ∧ ∀ x ∈ l, l.foldl min a ≤ x := by
  induction l generalizing a with
  | nil => exact ⟨le_refl a, by simp⟩
  | cons b t ih =>
    simp only [List.foldl_cons]
    refine ⟨le_trans (ih (min a b)).1 (min_le_left a b), ?_⟩
    intro x hx
    rcases List.mem_cons.mp hx with h | h
    · subst h
      exact le_trans (ih (min a x)).1 (min_le_right a x)
    · exact (ih (min a b)).2 x h

lemma foldl_max_mem (a : ℚ) (l : List ℚ) :
    l.foldl max a = a ∨ l.foldl max a ∈ l := by
  induction l generalizing a with
  | nil => exact Or.inl rfl
  | cons b t ih =>
    simp only [List.foldl_cons]
    rcases ih (max a b) with h | h
    · rcases max_choice a b with hc | hc
      · exact Or.inl (by rw [h, hc])
      · exact Or.inr (by rw [h, hc]; exact List.mem_cons_self b t)
    · exact Or.inr (List.mem_cons_of_mem b h)

lemma foldl_min_mem (a : ℚ) (l : List ℚ) :
    l.foldl min a = a ∨ l.foldl min a ∈ l := by
  induction l generalizing a with
  | nil => exact Or.inl rfl
  | cons b t ih =>
    simp only [List.foldl_cons]
    rcases ih (min a b) with h | h
    · rcases min_choice a b with hc | hc
      · exact Or.inl (by rw [h, hc])
      · exact Or.inr (by rw [h, hc]; exact List.mem_cons_self b t)
    · exact Or.inr (List.mem_cons_of_mem b h)

lemma le_pyMax {l : List ℚ} {x : ℚ} (d : ℚ) (hx : x ∈ l) : x ≤ pyMax l d := by
  match l, hx with
  | a :: t, hx =>
    show x ≤ t.foldl max a
    rcases List.mem_cons.mp hx with h | h
    · subst h
      exact (foldl_max_le_spec x t).1
    · exact (foldl_max_le_spec a t).2 x h

lemma pyMin_le {l : List ℚ} {x : ℚ} (d : ℚ) (hx : x ∈ l) : pyMin l d ≤ x := by
  match l, hx with
  | a :: t, hx =>
    show t.foldl min a ≤ x
    rcases List.mem_cons.mp hx with h | h
    · subst h
      exact (foldl_min_le_spec x t).1
    · exact (foldl_min_le_spec a t).2 x h

lemma pyMax_mem {l : List ℚ} (d : ℚ) (hl : l ≠ []) : pyMax l d ∈ l := by
  match l, hl with
  | a :: t, _ =>
    show t.foldl max a ∈ a :: t
    rcases foldl_max_mem a t with h | h
    · rw [h]; exact List.mem_cons_self a t
    · exact List.mem_cons_of_mem a h

lemma pyMin_mem {l : List ℚ} (d : ℚ) (hl : l ≠ []) : pyMin l d ∈ l := by
  match l, hl with
  | a :: t, _ =>
    show t.foldl min a ∈ a :: t
    rcases foldl_min_mem a t with h | h
    · rw [h]; exact List.mem_cons_self a t
    · exact List.mem_cons_of_mem a h

lemma allEq_iff_max_eq_min {results : List (Doc × ℚ)} (h : results ≠ []) :
    (∀ q1 ∈ results, ∀ q2 ∈ results, q1.2 = q2.2) ↔
      pyMax (results.map (fun r => r.2)) 1 = pyMin (results.map (fun r => r.2)) 0 := by
  set scores := results.map (fun r => r.2) with hs
  have hsne : scores ≠ [] := by
    simpa [hs] using h
  constructor
  · intro hall
    obtain ⟨qM, hqM, hqM2⟩ := List.mem_map.mp (pyMax_mem 1 hsne)
    obtain ⟨qm, hqm, hqm2⟩ := List.mem_map.mp (pyMin_mem 0 hsne)
    rw [← hqM2, ← hqm2]
    exact hall qM hqM qm hqm
  · intro heq q1 hq1 q2 hq2
    have h1 : q1.2 ∈ scores := List.mem_map_of_mem _ hq1
    have h2 : q2.2 ∈ scores := List.mem_map_of_mem _ hq2
    have l1 := pyMin_le 0 h1
    have u1 := le_pyMax 1 h1
    have l2 := pyMin_le 0 h2
    have u2 := le_pyMax 1 h2
    rw [heq] at u1 u2
    have e1 : q1.2 = pyMin scores 0 := le_antisymm u1 l1
    have e2 : q2.2 = pyMin scores 0 := le_antisymm u2 l2
    rw [e1, e2]

lemma normalize_scores_cons_eq (a : Doc × ℚ) (t : List (Doc × ℚ)) :
    normalize_scores (a :: t) =
      (a :: t).map (fun p => (p.1,
        (p.2 - pyMin ((a :: t).map (fun r => r.2)) 0) /
          (if pyMax ((a :: t).map (fun r => r.2)) 1 ≠
              pyMin ((a :: t).map (fun r => r.2)) 0 then
            pyMax ((a :: t).map (fun r => r.2)) 1 -
              pyMin ((a :: t).map (fun r => r.2)) 0
          else 1))) := rfl

lemma normalize_range_pos {results : List (Doc × ℚ)} (h : results ≠ []) :
    0 < (if pyMax (results.map (fun r => r.2)) 1 ≠
            pyMin (results.map (fun r => r.2)) 0 then
          pyMax (results.map (fun r => r.2)) 1 -
            pyMin (results.map (fun r => r.2)) 0
        else 1) := by
  set scores := results.map (fun r => r.2) with hs
  have hsne : scores ≠ [] := by simpa [hs] using h
  by_cases hMm : pyMax scores 1 ≠ pyMin scores 0
  · rw [if_pos hMm]
    have hle : pyMin scores 0 ≤ pyMax scores 1 :=
      le_trans (pyMin_le 0 (pyMax_mem 1 hsne)) (le_refl _)
    exact sub_pos.mpr (lt_of_le_of_ne hle (Ne.symm hMm))
  · rw [if_neg hMm]
    exact one_pos

lemma normalize_mem_bounds {results : List (Doc × ℚ)} {p : Doc × ℚ}
    (hp : p ∈ normalize_scores results) : 0 ≤ p.2 ∧ p.2 ≤ 1 := by
  match results with
  | [] => simp [normalize_scores] at hp
  | a :: t =>
    rw [normalize_scores_cons_eq] at hp
    obtain ⟨q, hq, hqe⟩ := List.mem_map.mp hp
    have hne : (a :: t) ≠ ([] : List (Doc × ℚ)) := by simp
    set scores := (a :: t).map (fun r => r.2) with hs
    set m := pyMin scores 0 with hm
    set M := pyMax scores 1 with hM
    set r := (if M ≠ m then M - m else 1) with hr
    have hrpos : 0 < r := normalize_range_pos hne
    have hq2 : q.2 ∈ scores := List.mem_map_of_mem _ hq
    have hlow : m ≤ q.2 := pyMin_le 0 hq2
    have hhigh : q.2 ≤ M := le_pyMax 1 hq2
    have hp2 : p.2 = (q.2 - m) / r := by rw [← hqe]
    constructor
    · rw [hp2]
      exact div_nonneg (sub_nonneg.mpr hlow) (le_of_lt hrpos)
    · rw [hp2, div_le_one hrpos]
      by_cases hMm : M ≠ m
      · rw [hr, if_pos hMm]
        exact sub_le_sub_right hhigh m
      · push_neg at hMm
        rw [hr, if_neg (by simpa using hMm)]
        have : q.2 ≤ m := hMm ▸ hhigh
        linarith

/-- **C2.** For every non-empty list of (item, score) pairs, `normalize_scores`
rescales linearly into [0,1]: every output score lies in [0,1]; when not all
scores are equal, any pair holding the maximum input score maps to exactly 1
and any pair holding the minimum maps to exactly 0 (the minimum maps to 0 even
in the degenerate case); if all scores are equal, every output score is 0
(division guarded); the empty list yields the empty list. -/
theorem c2_normalize_scores_bounds :
    normalize_scores [] = [] ∧
    ∀ results : List (Doc × ℚ), results ≠ [] →
      (∀ p ∈ normalize_scores results, 0 ≤ p.2 ∧ p.2 ≤ 1) ∧
      (∀ p ∈ results, (∀ q ∈ results, q.2 ≤ p.2) →
        (¬ ∀ q1 ∈ results, ∀ q2 ∈ results, q1.2 = q2.2) →
        (p.1, (1 : ℚ)) ∈ normalize_scores results) ∧
      (∀ p ∈ results, (∀ q ∈ results, p.2 ≤ q.2) →
        (p.1, (0 : ℚ)) ∈ normalize_scores results) ∧
      ((∀ q1 ∈ results, ∀ q2 ∈ results, q1.2 = q2.2) →
        ∀ p ∈ normalize_scores results, p.2 = 0) := by
  refine ⟨rfl, ?_⟩
  intro results hne
  match results, hne with
  | a :: t, _ =>
    have hne2 : (a :: t) ≠ ([] : List (Doc × ℚ)) := by simp
    set scores := (a :: t).map (fun r => r.2) with hs
    have hsne : scores ≠ [] := by simp [hs]
    set m := pyMin scores 0 with hm
    set M := pyMax scores 1 with hM
    set r := (if M ≠ m then M - m else 1) with hr
    have hrpos : 0 < r := normalize_range_pos hne2
    refine ⟨fun p hp => normalize_mem_bounds hp, ?_, ?_, ?_⟩
    · -- maximum maps to 1 when not all scores are equal
      intro p hp hmax hneq
      have hMeq : p.2 = M := by
        have h1 : p.2 ≤ M := le_pyMax 1 (List.mem_map_of_mem _ hp)
        have h2 : M ≤ p.2 := by
          obtain ⟨qM, hqM, hqM2⟩ := List.mem_map.mp (pyMax_mem 1 hsne)
          rw [hM, hs, ← hqM2]
          exact hmax qM hqM
        exact le_antisymm h1 h2
      have hMm : M ≠ m := by
        intro hcon
        exact hneq ((allEq_iff_max_eq_min hne2).mpr hcon)
      rw [normalize_scores_cons_eq]
      refine List.mem_map.mpr ⟨p, hp, ?_⟩
      rw [hMeq]
      have : (M - m) / r = 1 := by
        rw [hr, if_pos hMm]
        exact div_self (sub_ne_zero.mpr hMm)
      simp only [← hm, ← hM, ← hr]
      rw [this]
    · -- minimum maps to 0
      intro p hp hmin
      have hmeq : p.2 = m := by
        have h1 : m ≤ p.2 := pyMin_le 0 (List.mem_map_of_mem _ hp)
        have h2 : p.2 ≤ m := by
          obtain ⟨qm, hqm, hqm2⟩ := List.mem_map.mp (pyMin_mem 0 hsne)
          rw [hm, hs, ← hqm2]
          exact hmin qm hqm
        exact le_antisymm h2 h1
      rw [normalize_scores_cons_eq]
      refine List.mem_map.mpr ⟨p, hp, ?_⟩
      rw [hmeq]
      simp only [← hm, ← hM, ← hr]
      rw [sub_self, zero_div]
    · -- all equal: everything maps to 0
      intro hall p hp
      have hMm : M = m := (allEq_iff_max_eq_min hne2).mp hall
      rw [normalize_scores_cons_eq] at hp
      obtain ⟨q, hq, hqe⟩ := List.mem_map.mp hp
      have hq2 : q.2 ∈ scores := List.mem_map_of_mem _ hq
      have hlow : m ≤ q.2 := pyMin_le 0 hq2
      have hhigh : q.2 ≤ M := le_pyMax 1 hq2
      have hqm : q.2 = m := le_antisymm (hMm ▸ hhigh) hlow
      have hp2 : p.2 = (q.2 - m) / r := by rw [← hqe]
      rw [hp2, hqm, sub_self, zero_div]

/-- Witness for C2 at a concrete two-element list with distinct scores. -/
theorem c2_normalize_scores_bounds_witness :
    ([(⟨"A", none, none, none⟩, (10 : ℚ)), (⟨"B", none, none, none⟩, 5)] ≠
      ([] : List (Doc × ℚ))) ∧
    ∀ p ∈ normalize_scores
        [(⟨"A", none, none, none⟩, (10 : ℚ)), (⟨"B", none, none, none⟩, 5)],
      0 ≤ p.2 ∧ p.2 ≤ 1 := by
  have hne : ([(⟨"A", none, none, none⟩, (10 : ℚ)),
      (⟨"B", none, none, none⟩, 5)] ≠ ([] : List (Doc × ℚ))) := by simp
  exact ⟨hne, (c2_normalize_scores_bounds.2 _ hne).1⟩

/-- **C4.** `_calculate_confidence` computes exactly the claim's formula: 0
for an empty answer or one whose lowercased text starts with the refusal
prefix, otherwise the 0.5/0.3/0.2-weighted combination of mean evidence
score, citation saturation and length saturation, clamped to [0,1]. -/
theorem c4_confidence_formula :
    ∀ (answer : String) (retrieved_docs : List (Doc × ℚ))
      (citations : List Citation),
      calculate_confidence answer retrieved_docs citations =
        confidence_spec answer retrieved_docs citations := by
  have clampEq : ∀ c : ℚ, min (max c 0) 1 =
      if c < 0 then 0 else if 1 < c then 1 else c := by
    intro c
    rcases lt_or_le c 0 with hlt | hge
    · rw [if_pos hlt, max_eq_right (le_of_lt hlt),
        min_eq_left (by norm_num : (0 : ℚ) ≤ 1)]
    · rw [if_neg (not_lt.mpr hge), max_eq_left hge]
      rcases lt_or_le 1 c with h1 | h1
      · rw [if_pos h1, min_eq_right (le_of_lt h1)]
      · rw [if_neg (not_lt.mpr h1), min_eq_left h1]
  intro answer retrieved_docs citations
  unfold calculate_confidence confidence_spec
  by_cases h0 : answer = "" ∨ pyStartsWith refusalPrefix (pyLower answer)
  · rw [if_pos h0, if_pos h0]
  · rw [if_neg h0, if_neg h0]
    simp only [List.isEmpty_iff, clampEq]
    set A := (if retrieved_docs = [] then (0 : ℚ)
      else (retrieved_docs.map (fun p => p.2)).sum / retrieved_docs.length)
      with hA
    set B := min ((citations.length : ℚ) / 3) 1 with hB
    set C := min ((answer.length : ℚ) / 200) 1 with hC
    have hcoef : (5 / 10 : ℚ) * A + (3 / 10 : ℚ) * B + (2 / 10 : ℚ) * C
        = (1 / 2 : ℚ) * A + (3 / 10 : ℚ) * B + (1 / 5 : ℚ) * C := by ring
    rw [hcoef]

lemma foldl_append_singletons {α β : Type} (f : α → β) :
    ∀ (l : List α) (acc : List β),
      l.foldl (fun cs m => cs ++ [f m]) acc = acc ++ l.map f := by
  intro l
  induction l with
  | nil => intro acc; simp
  | cons a t ih =>
    intro acc
    simp only [List.foldl_cons, List.map_cons]
    rw [ih (acc ++ [f a])]
    simp

lemma excerptFor_eq_spec (docs : List Doc) (m : Marker) :
    excerptFor docs m.source m.page = excerpt_spec docs m := by
  obtain ⟨s, pg, sc⟩ := m
  unfold excerptFor excerpt_spec
  have hpred : (fun d : Doc =>
      d.filename == some s && (pg.isNone || d.page == pg)) =
      (fun d : Doc => decide (chunkMatches d ⟨s, pg, sc⟩)) := by
    funext d
    unfold chunkMatches
    cases pg with
    | none => simp; rw [Bool.eq_iff_iff]; simp
    | some p => simp; rw [Bool.eq_iff_iff]; simp
  rw [hpred]

/-- **C3.** `_extract_citations` returns exactly one `Citation` per marker
recognised by the pattern scan, in the order the markers occur in the answer
text, each carrying the marker's source, page and section; the excerpt comes
from the first evidence chunk (in evidence order) whose filename equals the
cited source and, when a page was cited, whose page equals it; when no chunk
matches, the excerpt is empty but the `Citation` is still emitted.
(Malformed markers never enter `findMarkers`, and the function is total, so
extraction never raises.) -/
theorem c3_extract_citations_spec :
    ∀ (answer : String) (docs : List Doc),
      extract_citations answer docs = (findMarkers answer).map (fun m =>
        ⟨m.source, m.page, m.sec, excerpt_spec docs m⟩) ∧
      ∀ m ∈ findMarkers answer,
        (∀ d ∈ docs, ¬ chunkMatches d m) →
        (⟨m.source, m.page, m.sec, ""⟩ : Citation) ∈
          extract_citations answer docs := by
  intro answer docs
  have hmain : extract_citations answer docs = (findMarkers answer).map
      (fun m => ⟨m.source, m.page, m.sec, excerpt_spec docs m⟩) := by
    unfold extract_citations
    rw [foldl_append_singletons
      (fun m : Marker =>
        (⟨m.source, m.page, m.sec,
          excerptFor docs m.source m.page⟩ : Citation)) (findMarkers answer) []]
    simp only [List.nil_append]
    apply List.map_congr_left
    intro m _
    rw [excerptFor_eq_spec]
  refine ⟨hmain, ?_⟩
  intro m hm hnone
  have hfind : docs.find? (fun d => decide (chunkMatches d m)) = none := by
    apply List.find?_eq_none.mpr
    intro d hd
    simpa using hnone d hd
  have hex : excerpt_spec docs m = "" := by
    unfold excerpt_spec
    rw [hfind]
  rw [hmain]
  refine List.mem_map.mpr ⟨m, hm, ?_⟩
  rw [hex]

/-- Witness for C3: a recognised marker with no matching evidence chunk still
yields a `Citation`, with an empty excerpt. -/
theorem c3_extract_citations_spec_witness :
    (⟨"x.pdf", none, none, ""⟩ : Citation) ∈
      extract_citations "See [Source: x.pdf]" [] := by
  have hm : (⟨"x.pdf", none, none⟩ : Marker) ∈
      findMarkers "See [Source: x.pdf]" := by decide
  exact (c3_extract_citations_spec "See [Source: x.pdf]" []).2 _ hm
    (by intro d hd; simp at hd)

lemma lastTen_of_le {l : List Msg} (h : l.length ≤ 10) : lastTen l = l := by
  unfold lastTen
  rw [Nat.sub_eq_zero_of_le h, List.drop_zero]

lemma lastTen_length (l : List Msg) : (lastTen l).length = l.length - (l.length - 10) := by
  unfold lastTen
  rw [List.length_drop]

lemma lastTen_le (l : List Msg) : (lastTen l).length ≤ 10 := by
  rw [lastTen_length]
  omega

lemma lastTen_append_left (c l : List Msg) (h : 10 ≤ l.length) :
    lastTen (c ++ l) = lastTen l := by
  unfold lastTen
  rw [List.length_append, List.drop_append_eq_append_drop]
  rw [List.drop_eq_nil_of_le (by omega : c.length ≤ c.length + l.length - 10)]
  rw [List.nil_append]
  congr 1
  omega

lemma lastTen_idem (a b : List Msg) :
    lastTen (lastTen a ++ b) = lastTen (a ++ b) := by
  by_cases hle : a.length ≤ 10
  · rw [lastTen_of_le hle]
  · push_neg at hle
    have hla : (lastTen a).length = 10 := by
      rw [lastTen_length]; omega
    have hsplit : a ++ b = a.take (a.length - 10) ++ (lastTen a ++ b) := by
      rw [← List.append_assoc,
        show lastTen a = a.drop (a.length - 10) from rfl,
        List.take_append_drop]
    rw [hsplit]
    exact (lastTen_append_left _ _ (by rw [List.length_append, hla]; omega)).symm

lemma updateHistory_true_eq (h : List Msg) (q a : String) :
    updateHistory true h q a = lastTen (h ++ [Msg.human q, Msg.ai a]) := by
  unfold updateHistory
  rw [if_pos rfl]
  by_cases hlen : 10 < (h ++ [Msg.human q, Msg.ai a]).length
  · rw [if_pos hlen]
    rfl
  · rw [if_neg hlen]
    exact (lastTen_of_le (by omega)).symm

lemma query_history_step (env : QueryEnv) (h : List Msg) (q : String)
    (uh : Bool) (mode : SearchMode) (hmem : env.memoryEnabled = true)
    (hne : selectRetrieve env mode q ≠ []) :
    (query env h q uh mode).history2 =
      lastTen (h ++ [Msg.human q,
        Msg.ai (query env h q uh mode).response.answer]) := by
  have hb : (selectRetrieve env mode q).isEmpty = false :=
    List.isEmpty_eq_false.mpr hne
  simp only [query, hb, Bool.false_eq_true, if_false, hmem,
    updateHistory_true_eq]

lemma query_answer_retrieval_calls (env : QueryEnv) (h : List Msg)
    (q : String) (uh : Bool) (mode : SearchMode) :
    (query env h q uh mode).retrievalCalls = [q] := by
  simp only [query]
  split <;> rfl

/-- **C6 counterexample.** With a perfectly ordinary environment, `query`
called on the empty question string still performs a retrieval call (with the
empty string as the query): the empty question is not rejected before
retrieval, contradicting the claim. -/
theorem c6_counterexample :
    (query envEmpty [] "" true SearchMode.keyword).retrievalCalls ≠ [] := by
  rw [query_answer_retrieval_calls]
  simp

/-- **C6 (amended).** `RAGChain.query` performs no validation of the question
string: for every question — including the empty string — and every mode, it
performs exactly one retrieval invocation, passing the question through
unmodified. -/
theorem c6_amended_no_input_validation :
    ∀ (env : QueryEnv) (h : List Msg) (q : String) (uh : Bool)
      (mode : SearchMode),
      (query env h q uh mode).retrievalCalls = [q] :=
  query_answer_retrieval_calls

/-- **C7.** Whenever retrieval yields no results, `query` returns the fixed
no-relevant-information response — stock apology answer, empty citations,
confidence exactly 0, empty evidence — without invoking the generator and
without touching the conversation history.  It is a defined `RAGResponse`
value, not an error. -/
theorem c7_no_results_response :
    ∀ (env : QueryEnv) (h : List Msg) (q : String) (uh : Bool)
      (mode : SearchMode),
      selectRetrieve env mode q = [] →
      query env h q uh mode =
        ⟨⟨noInfoAnswer, [], 0, []⟩, h, [q], 0⟩ := by
  intro env h q uh mode hsel
  have hb : (selectRetrieve env mode q).isEmpty = true :=
    List.isEmpty_iff.mpr hsel
  simp only [query, hb, if_true]

/-- Witness for C7 at a concrete environment and question. -/
theorem c7_no_results_response_witness :
    selectRetrieve envEmpty SearchMode.hybrid "What is X?" = [] ∧
    query envEmpty [] "What is X?" true SearchMode.hybrid =
      ⟨⟨noInfoAnswer, [], 0, []⟩, [], ["What is X?"], 0⟩ :=
  ⟨rfl, c7_no_results_response envEmpty [] "What is X?" true SearchMode.hybrid rfl⟩

/-- **C8 counterexample.** A query that completes through the no-results
short-circuit returns a `RAGResponse` but appends nothing to the conversation
history, even with memory enabled — not the two entries the claim promises
for every completed query. -/
theorem c8_counterexample :
    envEmpty.memoryEnabled = true ∧
    (query envEmpty [] "q" true SearchMode.hybrid).history2 = [] ∧
    (query envEmpty [] "q" true SearchMode.hybrid).history2 ≠
      [Msg.human "q",
        Msg.ai (query envEmpty [] "q" true SearchMode.hybrid).response.answer] := by
  refine ⟨rfl, rfl, ?_⟩
  intro hcon
  have h0 : (query envEmpty [] "q" true SearchMode.hybrid).history2 = [] := rfl
  rw [h0] at hcon
  simp at hcon

lemma runQueries_snd_length (env : QueryEnv) (uh : Bool) (mode : SearchMode) :
    ∀ (qs : List String) (h : List Msg),
      (runQueries env uh mode qs h).2.length = 2 * qs.length := by
  intro qs
  induction qs with
  | nil => intro h; simp [runQueries]
  | cons q qs ih =>
    intro h
    simp only [runQueries, List.length_append, List.length_cons,
      List.length_nil, ih]
    omega

lemma runQueries_invariant (env : QueryEnv) (uh : Bool) (mode : SearchMode)
    (hmem : env.memoryEnabled = true)
    (hne : ∀ q, selectRetrieve env mode q ≠ []) :
    ∀ (qs : List String) (h : List Msg), h.length ≤ 10 →
      (runQueries env uh mode qs h).1 =
        lastTen (h ++ (runQueries env uh mode qs h).2) := by
  intro qs
  induction qs with
  | nil =>
    intro h hh
    simp only [runQueries, List.append_nil]
    exact (lastTen_of_le hh).symm
  | cons q qs ih =>
    intro h hh
    simp only [runQueries]
    have hstep := query_history_step env h q uh mode hmem (hne q)
    have hlen : (query env h q uh mode).history2.length ≤ 10 := by
      rw [hstep]; exact lastTen_le _
    rw [ih (query env h q uh mode).history2 hlen, hstep, lastTen_idem,
      List.append_assoc]

/-- **C8 (amended).** With memory enabled, each query that passes the
no-results short-circuit appends exactly two entries (the user question then
the assistant answer) to the history and truncates to the most recent 10
entries (a suffix: oldest dropped first, never reordered); consequently,
after 6 answered query/answer round trips from an empty history, the
retained history is exactly the full 12-entry transcript minus its 2 oldest
entries — the most recent 10 entries.  (A query taking the no-results
short-circuit leaves the history unchanged, see the counterexample.) -/
theorem c8_amended_history_truncation :
    (∀ (env : QueryEnv) (h : List Msg) (q : String) (uh : Bool)
      (mode : SearchMode),
      env.memoryEnabled = true → selectRetrieve env mode q ≠ [] →
      (query env h q uh mode).history2 =
        lastTen (h ++ [Msg.human q,
          Msg.ai (query env h q uh mode).response.answer])) ∧
    (∀ (env : QueryEnv) (uh : Bool) (mode : SearchMode)
      (q1 q2 q3 q4 q5 q6 : String),
      env.memoryEnabled = true → (∀ q, selectRetrieve env mode q ≠ []) →
      (runQueries env uh mode [q1, q2, q3, q4, q5, q6] []).1 =
        (runQueries env uh mode [q1, q2, q3, q4, q5, q6] []).2.drop 2 ∧
      (runQueries env uh mode [q1, q2, q3, q4, q5, q6] []).1.length = 10) := by
  constructor
  · intro env h q uh mode hmem hne
    exact query_history_step env h q uh mode hmem hne
  · intro env uh mode q1 q2 q3 q4 q5 q6 hmem hne
    have hT : (runQueries env uh mode [q1, q2, q3, q4, q5, q6] []).2.length
        = 12 := by
      rw [runQueries_snd_length]
      rfl
    have hinv := runQueries_invariant env uh mode hmem hne
      [q1, q2, q3, q4, q5, q6] [] (by simp)
    rw [List.nil_append] at hinv
    constructor
    · rw [hinv]
      unfold lastTen
      rw [hT]
    · rw [hinv]
      rw [lastTen_length, hT]

/-- Witness for the amended C8 at a concrete environment with non-empty
retrieval on every query. -/
theorem c8_amended_history_truncation_witness :
    envStub.memoryEnabled = true ∧
    (runQueries envStub true SearchMode.hybrid
      ["a", "b", "c", "d", "e", "f"] []).1.length = 10 :=
  ⟨rfl,
    (c8_amended_history_truncation.2 envStub true SearchMode.hybrid
      "a" "b" "c" "d" "e" "f" rfl
      (fun q => by simp [selectRetrieve, envStub])).2⟩

lemma argsortLe_iff (s : List ℚ) (i j : Nat) : argsortLe s i j = true ↔
    (s.getD i 0 < s.getD j 0 ∨ (s.getD i 0 = s.getD j 0 ∧ i ≤ j)) := by
  unfold argsortLe
  exact decide_eq_true_iff

lemma argsortLe_trans (s : List ℚ) : ∀ a b c : Nat,
    argsortLe s a b = true → argsortLe s b c = true →
    argsortLe s a c = true := by
  intro a b c hab hbc
  rw [argsortLe_iff] at hab hbc ⊢
  rcases hab with h1 | ⟨h1, h1i⟩ <;> rcases hbc with h2 | ⟨h2, h2i⟩
  · exact Or.inl (lt_trans h1 h2)
  · exact Or.inl (h2 ▸ h1)
  · exact Or.inl (h1 ▸ h2)
  · exact Or.inr ⟨h1.trans h2, le_trans h1i h2i⟩

lemma argsortLe_total (s : List ℚ) : ∀ a b : Nat,
    (argsortLe s a b || argsortLe s b a) = true := by
  intro a b
  rw [Bool.or_eq_true, argsortLe_iff, argsortLe_iff]
  rcases lt_trichotomy (s.getD a 0) (s.getD b 0) with h | h | h
  · exact Or.inl (Or.inl h)
  · rcases Nat.le_total a b with hi | hi
    · exact Or.inl (Or.inr ⟨h, hi⟩)
    · exact Or.inr (Or.inr ⟨h.symm, hi⟩)
  · exact Or.inr (Or.inl h)

lemma argsortAsc_pairwise (s : List ℚ) :
    List.Pairwise (fun i j => argsortLe s i j = true) (argsortAsc s) :=
  List.sorted_mergeSort (argsortLe_trans s) (argsortLe_total s)
    (List.range s.length)

lemma argsortAsc_nodup (s : List ℚ) : (argsortAsc s).Nodup :=
  (List.mergeSort_perm (List.range s.length) (argsortLe s)).symm.nodup
    (List.nodup_range s.length)

/-- The amended tie-break on the reversed stable argsort: a tied pair is
emitted with the larger corpus index first. -/
lemma bm25_top_indices_pairwise (s : List ℚ) (k : Nat) :
    List.Pairwise (fun i j => s.getD j 0 < s.getD i 0 ∨
      (s.getD i 0 = s.getD j 0 ∧ j < i)) (bm25_top_indices s k) := by
  unfold bm25_top_indices
  apply List.Pairwise.sublist (List.take_sublist k _)
  have h1 : List.Pairwise (fun i j => argsortLe s j i = true)
      (argsortAsc s).reverse :=
    List.pairwise_reverse.mpr (argsortAsc_pairwise s)
  have h2 : List.Pairwise (fun i j : Nat => i ≠ j) (argsortAsc s).reverse :=
    List.nodup_reverse.mpr (argsortAsc_nodup s)
  refine (h1.and h2).imp ?_
  intro i j ⟨hle, hne⟩
  rw [argsortLe_iff] at hle
  rcases hle with h | ⟨heq, hij⟩
  · exact Or.inl h
  · exact Or.inr ⟨heq.symm, lt_of_le_of_ne hij (Ne.symm hne)⟩

lemma filterMap_if {α β : Type} (p : α → Prop) [DecidablePred p] (f : α → β)
    (l : List α) :
    l.filterMap (fun a => if p a then some (f a) else none)
      = (l.filter (fun a => decide (p a))).map f := by
  induction l with
  | nil => rfl
  | cons a t ih =>
    by_cases hp : p a <;> simp [hp, ih]

/-- **C5 (amended).** `bm25_search` returns at most `k` chunks, all with
score strictly greater than 0, sorted descending by score — but ties are
broken towards the **later** corpus index (the top indices are the reversal
of the stable ascending argsort, so among equal scores the larger index comes
first); with an unbuilt index (which is how an empty corpus is represented)
it returns the empty list and never raises. -/
theorem c5_amended_bm25_search :
    (∀ (r : HybridRetriever) (q : String) (k : Nat),
      (bm25_search r q k).length ≤ k) ∧
    (∀ (r : HybridRetriever) (q : String) (k : Nat),
      ∀ p ∈ bm25_search r q k, 0 < p.2) ∧
    (∀ (r : HybridRetriever) (q : String) (k : Nat),
      List.Pairwise (fun p1 p2 : Doc × ℚ => p2.2 ≤ p1.2) (bm25_search r q k)) ∧
    (∀ (s : List ℚ) (k : Nat),
      List.Pairwise (fun i j => s.getD j 0 < s.getD i 0 ∨
        (s.getD i 0 = s.getD j 0 ∧ j < i)) (bm25_top_indices s k)) ∧
    (∀ (r : HybridRetriever) (q : String) (k : Nat),
      r.bm25 = none → bm25_search r q k = []) := by
  refine ⟨?_, ?_, ?_, bm25_top_indices_pairwise, ?_⟩
  · intro r q k
    cases hbm : r.bm25 with
    | none => simp [bm25_search, hbm]
    | some idx =>
      simp only [bm25_search, hbm]
      refine le_trans (List.length_filterMap_le _ _) ?_
      unfold bm25_top_indices
      rw [List.length_take]
      exact min_le_left _ _
  · intro r q k p hp
    cases hbm : r.bm25 with
    | none => simp [bm25_search, hbm] at hp
    | some idx =>
      simp only [bm25_search, hbm] at hp
      obtain ⟨i, _, hi⟩ := List.mem_filterMap.mp hp
      by_cases hc : 0 < (idx.getScores q).getD i 0
      · rw [if_pos hc] at hi
        cases hi
        exact hc
      · rw [if_neg hc] at hi
        cases hi
  · intro r q k
    cases hbm : r.bm25 with
    | none => simp [bm25_search, hbm]
    | some idx =>
      simp only [bm25_search, hbm]
      rw [filterMap_if (fun i => 0 < (idx.getScores q).getD i 0)
        (fun i => (r.documents.getD i default, (idx.getScores q).getD i 0))]
      rw [List.pairwise_map]
      apply List.Pairwise.sublist (List.filter_sublist _)
      refine (bm25_top_indices_pairwise (idx.getScores q) k).imp ?_
      intro i j hij
      rcases hij with h | ⟨h, _⟩
      · exact le_of_lt h
      · exact le_of_eq h.symm
  · intro r q k hbm
    simp [bm25_search, hbm]

/-- Witness for the amended C5 at a concrete retriever with an unbuilt
index. -/
theorem c5_amended_bm25_search_witness :
    (⟨[], none⟩ : HybridRetriever).bm25 = none ∧
    bm25_search ⟨[], none⟩ "q" 3 = [] :=
  ⟨rfl, c5_amended_bm25_search.2.2.2.2 ⟨[], none⟩ "q" 3 rfl⟩

lemma argsortAsc_ones : argsortAsc [(1 : ℚ), 1] = [0, 1] := by
  unfold argsortAsc
  have hr : List.range ([(1 : ℚ), 1]).length = [0, 1] := by decide
  rw [hr]
  apply List.mergeSort_of_sorted
  refine List.pairwise_cons.mpr ⟨?_, List.pairwise_singleton _ _⟩
  intro j hj
  rw [List.mem_singleton] at hj
  subst hj
  decide

/-- **C5 counterexample.** On a two-chunk corpus with equal positive BM25
scores, `bm25_search` returns the chunk with the *later* corpus index first,
not the earlier one as the claim states. -/
theorem c5_counterexample :
    bm25_search tieRetriever "q" 2 = [(bmDoc1, 1), (bmDoc0, 1)] ∧
    bm25_search tieRetriever "q" 2 ≠ [(bmDoc0, 1), (bmDoc1, 1)] := by
  have htop : bm25_top_indices [(1 : ℚ), 1] 2 = [1, 0] := by
    unfold bm25_top_indices
    rw [argsortAsc_ones]
    rfl
  have hsearch : bm25_search tieRetriever "q" 2 = [(bmDoc1, 1), (bmDoc0, 1)] := by
    show (bm25_top_indices [(1 : ℚ), 1] 2).filterMap _ = _
    rw [htop]
    simp only [List.filterMap]
    norm_num [tieRetriever, List.getD]
  refine ⟨hsearch, ?_⟩
  rw [hsearch]
  intro hcon
  have : bmDoc1 = bmDoc0 := congrArg (fun l => (l.headD (bmDoc0, 0)).1) hcon
  simp [bmDoc0, bmDoc1] at this

lemma normLookup_cons (p : Doc × ℚ) (t : List (Doc × ℚ)) (key : String) :
    normLookup (p :: t) key =
      if keyOf p = key then p.2 else normLookup t key := by
  unfold normLookup keyOf
  rw [List.find?_cons]
  by_cases h : p.1.page_content = key
  · simp [h]
  · simp only [beq_eq_false_iff_ne.mpr h]
    rw [if_neg h]

lemma normLookup_self {b : List (Doc × ℚ)} (hb : (b.map keyOf).Nodup) :
    ∀ p ∈ b, normLookup b (keyOf p) = p.2 := by
  induction b with
  | nil => intro p hp; simp at hp
  | cons q t ih =>
    intro p hp
    rw [List.map_cons] at hb
    rcases List.mem_cons.mp hp with h | h
    · subst h
      rw [normLookup_cons, if_pos rfl]
    · rw [normLookup_cons]
      have hne : keyOf q ≠ keyOf p := by
        intro hcon
        exact (List.nodup_cons.mp hb).1 (hcon ▸ List.mem_map_of_mem keyOf h)
      rw [if_neg hne]
      exact ih (List.nodup_cons.mp hb).2 p h

lemma normLookup_not_mem {b : List (Doc × ℚ)} {key : String}
    (h : key ∉ b.map keyOf) : normLookup b key = 0 := by
  unfold normLookup
  have hfind : b.find? (fun p => p.1.page_content == key) = none := by
    rw [List.find?_eq_none]
    intro p hp hcon
    rw [beq_iff_eq] at hcon
    exact h (hcon ▸ List.mem_map_of_mem keyOf hp)
  rw [hfind]

lemma anyKey_iff (acc : List CombinedEntry) (x : String) :
    acc.any (fun e => e.key == x) = true ↔
      x ∈ acc.map (fun e => e.key) := by
  rw [List.any_eq_true]
  constructor
  · rintro ⟨e, he, heq⟩
    rw [beq_iff_eq] at heq
    exact heq ▸ List.mem_map_of_mem _ he
  · intro hx
    obtain ⟨e, he, heq⟩ := List.mem_map.mp hx
    exact ⟨e, he, beq_iff_eq.mpr heq⟩

lemma anyKey_false (acc : List CombinedEntry) (x : String)
    (h : x ∉ acc.map (fun e => e.key)) :
    acc.any (fun e => e.key == x) = false := by
  rw [← Bool.not_eq_true, anyKey_iff]
  exact h

lemma foldl_dictSet_eq (alpha : ℚ) :
    ∀ (v : List (Doc × ℚ)) (acc : List CombinedEntry),
      (v.map keyOf).Nodup →
      (∀ p ∈ v, keyOf p ∉ acc.map (fun e => e.key)) →
      v.foldl (fun acc p => dictSet acc p.1 (alpha * p.2)) acc
        = acc ++ v.map (fun p => ⟨keyOf p, p.1, alpha * p.2⟩) := by
  intro v
  induction v with
  | nil => intro acc _ _; simp
  | cons p t ih =>
    intro acc hnd hdisj
    rw [List.map_cons] at hnd
    simp only [List.foldl_cons]
    have hset : dictSet acc p.1 (alpha * p.2)
        = acc ++ [⟨keyOf p, p.1, alpha * p.2⟩] := by
      unfold dictSet
      rw [anyKey_false acc p.1.page_content (hdisj p (List.mem_cons_self p t))]
      simp [keyOf]
    have hdisj2 : ∀ q ∈ t,
        keyOf q ∉ (acc ++ [(⟨keyOf p, p.1, alpha * p.2⟩ : CombinedEntry)]).map
          (fun e => e.key) := by
      intro q hq
      rw [List.map_append]
      intro hcon
      rcases List.mem_append.mp hcon with h | h
      · exact hdisj q (List.mem_cons_of_mem p hq) h
      · have hqp : keyOf q = keyOf p := by simpa using h
        exact (List.nodup_cons.mp hnd).1
          (hqp ▸ List.mem_map_of_mem keyOf hq)
    rw [hset, ih (acc ++ [(⟨keyOf p, p.1, alpha * p.2⟩ : CombinedEntry)])
      (List.nodup_cons.mp hnd).2 hdisj2]
    rw [List.append_assoc]
    rfl

lemma foldl_dictAdd_eq (c : ℚ) :
    ∀ (b : List (Doc × ℚ)) (acc : List CombinedEntry),
      (b.map keyOf).Nodup →
      b.foldl (fun acc p => dictAdd acc p.1 (c * p.2)) acc
        = acc.map (fun e =>
            if e.key ∈ b.map keyOf then
              ⟨e.key, e.doc, e.score + c * normLookup b e.key⟩ else e)
          ++ (b.filter (fun p =>
              decide (keyOf p ∉ acc.map (fun e => e.key)))).map
            (fun p => ⟨keyOf p, p.1, c * p.2⟩) := by
  intro b
  induction b with
  | nil =>
    intro acc _
    simp
  | cons p t ih =>
    intro acc hnd
    rw [List.map_cons] at hnd
    have hpt : keyOf p ∉ t.map keyOf := (List.nodup_cons.mp hnd).1
    have htnd := (List.nodup_cons.mp hnd).2
    simp only [List.foldl_cons]
    by_cases hmem : p.1.page_content ∈ acc.map (fun e => e.key)
    · -- the key is already present: in-place score update
      have hany : acc.any (fun e => e.key == p.1.page_content) = true :=
        (anyKey_iff acc p.1.page_content).mpr hmem
      have hadd : dictAdd acc p.1 (c * p.2)
          = acc.map (fun e => if e.key = p.1.page_content then
              ⟨e.key, e.doc, e.score + c * p.2⟩ else e) := by
        unfold dictAdd
        rw [hany]
        simp only [if_true]
        apply List.map_congr_left
        intro e _
        by_cases hk : e.key = p.1.page_content
        · simp [hk]
        · simp [hk]
      rw [hadd, ih _ htnd]
      have hkeys : (acc.map (fun e => if e.key = p.1.page_content then
          (⟨e.key, e.doc, e.score + c * p.2⟩ : CombinedEntry) else e)).map
            (fun e => e.key) = acc.map (fun e => e.key) := by
        rw [List.map_map]
        apply List.map_congr_left
        intro e _
        by_cases hk : e.key = p.1.page_content
        · simp [hk]
        · simp [hk]
      rw [hkeys]
      have hfilter : (p :: t).filter (fun q =>
          decide (keyOf q ∉ acc.map (fun e => e.key)))
          = t.filter (fun q =>
              decide (keyOf q ∉ acc.map (fun e => e.key))) := by
        rw [List.filter_cons]
        rw [decide_eq_false (by simpa [keyOf] using hmem : ¬ keyOf p ∉ acc.map (fun e => e.key))]
        simp
      rw [hfilter]
      congr 1
      rw [List.map_map]
      apply List.map_congr_left
      intro e _
      by_cases hk : e.key = p.1.page_content
      · have hkt : e.key ∉ t.map keyOf := by
          rw [hk]
          exact hpt
        have hkpt : e.key ∈ (p :: t).map keyOf := by
          rw [List.map_cons]
          exact hk ▸ List.mem_cons_self _ _
        simp only [Function.comp]
        rw [if_pos hk]
        have : ((⟨e.key, e.doc, e.score + c * p.2⟩ : CombinedEntry).key ∈
            t.map keyOf) = False := by
          simp only [eq_iff_iff, iff_false]
          exact hkt
        rw [if_neg (by simpa using hkt), if_pos hkpt]
        have hlook : normLookup (p :: t) e.key = p.2 := by
          rw [normLookup_cons, if_pos (show keyOf p = e.key from hk.symm)]
        rw [hlook]
      · simp only [Function.comp]
        rw [if_neg hk]
        have hiff : e.key ∈ (p :: t).map keyOf ↔ e.key ∈ t.map keyOf := by
          rw [List.map_cons, List.mem_cons]
          constructor
          · rintro (h | h)
            · exact absurd h hk
            · exact h
          · exact Or.inr
        by_cases hkt : e.key ∈ t.map keyOf
        · rw [if_pos hkt, if_pos (hiff.mpr hkt)]
          have hlook : normLookup (p :: t) e.key = normLookup t e.key := by
            rw [normLookup_cons, if_neg (fun hcon => hk hcon.symm)]
          rw [hlook]
        · rw [if_neg hkt, if_neg (fun hcon => hkt (hiff.mp hcon))]
    · -- fresh key: appended at the end
      have hany : acc.any (fun e => e.key == p.1.page_content) = false :=
        anyKey_false acc p.1.page_content hmem
      have hadd : dictAdd acc p.1 (c * p.2)
          = acc ++ [⟨p.1.page_content, p.1, c * p.2⟩] := by
        unfold dictAdd
        rw [hany]
        simp
      rw [hadd, ih _ htnd]
      have hkeys : ((acc ++ [(⟨p.1.page_content, p.1, c * p.2⟩ :
          CombinedEntry)]).map
          (fun e => e.key)) = acc.map (fun e => e.key) ++ [p.1.page_content] := by
        rw [List.map_append]
        rfl
      rw [hkeys]
      have hmap2 : ((acc ++ [(⟨p.1.page_content, p.1, c * p.2⟩ :
          CombinedEntry)]).map (fun e =>
          if e.key ∈ t.map keyOf then
            (⟨e.key, e.doc, e.score + c * normLookup t e.key⟩ : CombinedEntry)
          else e))
          = acc.map (fun e => if e.key ∈ t.map keyOf then
              ⟨e.key, e.doc, e.score + c * normLookup t e.key⟩ else e)
            ++ [(⟨p.1.page_content, p.1, c * p.2⟩ : CombinedEntry)] := by
        rw [List.map_append]
        congr 1
        show List.map _ [(⟨p.1.page_content, p.1, c * p.2⟩ : CombinedEntry)] = _
        rw [List.map_singleton]
        rw [if_neg (by simpa [keyOf] using hpt)]
      rw [hmap2]
      have hfilter2 : t.filter (fun q => decide (keyOf q ∉
          (acc.map (fun e => e.key) ++ [p.1.page_content])))
          = t.filter (fun q =>
              decide (keyOf q ∉ acc.map (fun e => e.key))) := by
        apply List.filter_congr
        intro q hq
        have hqp : keyOf q ≠ p.1.page_content := by
          intro hcon
          exact hpt ((show keyOf p = keyOf q from hcon.symm) ▸
            List.mem_map_of_mem keyOf hq)
        by_cases hqa : keyOf q ∈ acc.map (fun e => e.key)
        · rw [decide_eq_false (by simp [hqa]), decide_eq_false (by simp [hqa])]
        · rw [decide_eq_true (by simp [hqa, hqp]), decide_eq_true (by simp [hqa])]
      rw [hfilter2]
      have hfilter3 : (p :: t).filter (fun q =>
          decide (keyOf q ∉ acc.map (fun e => e.key)))
          = p :: t.filter (fun q =>
              decide (keyOf q ∉ acc.map (fun e => e.key))) := by
        rw [List.filter_cons]
        rw [decide_eq_true (by simpa [keyOf] using hmem)]
        simp
      rw [hfilter3]
      have hmapcons : (p :: t.filter (fun q =>
          decide (keyOf q ∉ acc.map (fun e => e.key)))).map
            (fun q => (⟨keyOf q, q.1, c * q.2⟩ : CombinedEntry))
          = (⟨p.1.page_content, p.1, c * p.2⟩ : CombinedEntry) ::
            (t.filter (fun q =>
              decide (keyOf q ∉ acc.map (fun e => e.key)))).map
              (fun q => ⟨keyOf q, q.1, c * q.2⟩) := by
        rw [List.map_cons]
        rfl
      rw [hmapcons]
      have hfinal : ∀ (A : List CombinedEntry) (x : CombinedEntry)
          (B : List CombinedEntry), A ++ [x] ++ B = A ++ (x :: B) := by
        intro A x B
        rw [List.append_assoc]
        rfl
      rw [hfinal]
      congr 1
      apply List.map_congr_left
      intro e he
      have hek : e.key ≠ p.1.page_content := by
        intro hcon
        exact hmem (hcon ▸ List.mem_map_of_mem (fun e => e.key) he)
      have hiff : e.key ∈ (p :: t).map keyOf ↔ e.key ∈ t.map keyOf := by
        rw [List.map_cons, List.mem_cons]
        constructor
        · rintro (h | h)
          · exact absurd h hek
          · exact h
        · exact Or.inr
      by_cases hkt : e.key ∈ t.map keyOf
      · rw [if_pos hkt, if_pos (hiff.mpr hkt)]
        have hlook : normLookup (p :: t) e.key = normLookup t e.key := by
          rw [normLookup_cons, if_neg (fun hcon => hek hcon.symm)]
        rw [hlook]
      · rw [if_neg hkt, if_neg (fun hcon => hkt (hiff.mp hcon))]

lemma find?_key_none {v : List (Doc × ℚ)} {key : String}
    (h : key ∉ v.map keyOf) :
    v.find? (fun q => q.1.page_content == key) = none := by
  rw [List.find?_eq_none]
  intro q hq hcon
  rw [beq_iff_eq] at hcon
  exact h (hcon ▸ List.mem_map_of_mem keyOf hq)

lemma find?_key_self : ∀ {v : List (Doc × ℚ)}, (v.map keyOf).Nodup →
    ∀ {p : Doc × ℚ}, p ∈ v →
      v.find? (fun q => q.1.page_content == keyOf p) = some p := by
  intro v
  induction v with
  | nil => intro _ p hp; simp at hp
  | cons q t ih =>
    intro hnd p hp
    rw [List.map_cons] at hnd
    rcases List.mem_cons.mp hp with h | h
    · subst h
      exact List.find?_cons_of_pos _ (beq_iff_eq.mpr rfl)
    · have hne : q.1.page_content ≠ keyOf p := by
        intro hcon
        exact (List.nodup_cons.mp hnd).1
          ((show keyOf q = keyOf p from hcon) ▸ List.mem_map_of_mem keyOf h)
      rw [List.find?_cons_of_neg _ (by simpa using hne)]
      exact ih (List.nodup_cons.mp hnd).2 h

/-- The `combined_scores` dict, characterised: when each candidate list has
pairwise-distinct texts, it holds the semantic candidates in order (scores
`alpha * sem + (1 - alpha) * lex-lookup`) followed by the lexical-only
candidates in order (scores `(1 - alpha) * lex`). -/
lemma combineScores_eq (v b : List (Doc × ℚ)) (alpha : ℚ)
    (hv : (v.map keyOf).Nodup) (hb : (b.map keyOf).Nodup) :
    combineScores v b alpha =
      v.map (fun p => ⟨keyOf p, p.1,
        alpha * p.2 + (1 - alpha) * normLookup b (keyOf p)⟩)
      ++ (b.filter (fun p => decide (keyOf p ∉ v.map keyOf))).map
           (fun p => ⟨keyOf p, p.1, (1 - alpha) * p.2⟩) := by
  unfold combineScores
  rw [foldl_dictSet_eq alpha v [] hv (by simp)]
  rw [List.nil_append]
  rw [foldl_dictAdd_eq (1 - alpha) b _ hb]
  have hkeys : (v.map (fun p =>
      (⟨keyOf p, p.1, alpha * p.2⟩ : CombinedEntry))).map (fun e => e.key)
      = v.map keyOf := by
    rw [List.map_map]
    rfl
  rw [hkeys]
  congr 1
  rw [List.map_map]
  apply List.map_congr_left
  intro p hp
  simp only [Function.comp]
  by_cases hkb : keyOf p ∈ b.map keyOf
  · simp only [hkb, if_true]
  · simp only [hkb, if_false]
    rw [normLookup_not_mem hkb]
    simp

/-- The `combined_scores` dict equals the spec-side per-key description over
the deduplicated first-encountered union. -/
lemma combineScores_eq_spec (v b : List (Doc × ℚ)) (alpha : ℚ)
    (hv : (v.map keyOf).Nodup) (hb : (b.map keyOf).Nodup) :
    combineScores v b alpha = (fusionKeys v b).map (fun key =>
      ⟨key, docFirst v b key,
        alpha * normLookup v key + (1 - alpha) * normLookup b key⟩) := by
  rw [combineScores_eq v b alpha hv hb]
  unfold fusionKeys
  rw [List.map_append]
  congr 1
  · rw [List.map_map]
    apply List.map_congr_left
    intro p hp
    simp only [Function.comp]
    have h1 : normLookup v (keyOf p) = p.2 := normLookup_self hv p hp
    have h2 : docFirst v b (keyOf p) = p.1 := by
      unfold docFirst
      rw [List.find?_append, find?_key_self hv hp]
      rfl
    rw [h1, h2]
  · rw [List.filter_map, List.map_map]
    apply List.map_congr_left
    intro p hp
    obtain ⟨hpb, hpf⟩ := List.mem_filter.mp hp
    have hnv : keyOf p ∉ v.map keyOf := by
      simpa using hpf
    simp only [Function.comp]
    have h1 : normLookup v (keyOf p) = 0 := normLookup_not_mem hnv
    have h2 : normLookup b (keyOf p) = p.2 := normLookup_self hb p hpb
    have h3 : docFirst v b (keyOf p) = p.1 := by
      unfold docFirst
      rw [List.find?_append, find?_key_none hnv, find?_key_self hb hpb]
      rfl
    rw [h1, h2, h3]
    have harith : alpha * 0 + (1 - alpha) * p.2 = (1 - alpha) * p.2 := by ring
    rw [harith]

lemma normalize_scores_map_keyOf (l : List (Doc × ℚ)) :
    (normalize_scores l).map keyOf = l.map keyOf := by
  cases l with
  | nil => rfl
  | cons a t =>
    rw [normalize_scores_cons_eq, List.map_map]
    rfl

/-- **C1 (amended).** For every query, `k` and `alpha`, provided each
candidate list contains pairwise-distinct texts — the proviso the
counterexample forces, since on duplicate-text lists the dict update fires
once per occurrence and the blend formula fails — `hybrid_search` requests
`2k` candidates from each ranker, normalizes each list independently, and
assigns every chunk of the deduplicated union (first-encountered order,
semantic scanned before lexical) the combined score
`alpha * semantic_norm + (1 - alpha) * lexical_norm` with a missing
appearance contributing 0, returning the top-`k` by combined score with ties
broken by first-encountered order (the stable descending sort of the
insertion-ordered union). -/
theorem c1_hybrid_search_fusion_spec :
    ∀ (vs : VectorStoreM) (r : HybridRetriever) (q : String) (k : Nat)
      (alpha threshold : ℚ),
      ((similarity_search vs q (k * 2) threshold).map keyOf).Nodup →
      ((bm25_search r q (k * 2)).map keyOf).Nodup →
      hybrid_search vs r q k alpha threshold =
        hybrid_search_spec (similarity_search vs q (k * 2) threshold)
          (bm25_search r q (k * 2)) k alpha := by
  intro vs r q k alpha threshold hv hb
  simp only [hybrid_search, hybrid_search_fuse, hybrid_search_spec]
  have hv2 : ((normalize_scores
      (similarity_search vs q (k * 2) threshold)).map keyOf).Nodup := by
    rw [normalize_scores_map_keyOf]
    exact hv
  have hb2 : ((normalize_scores (bm25_search r q (k * 2))).map keyOf).Nodup := by
    rw [normalize_scores_map_keyOf]
    exact hb
  rw [combineScores_eq_spec _ _ alpha hv2 hb2]

/-- Witness for C1 at a concrete store and an unbuilt lexical index. -/
theorem c1_hybrid_search_fusion_spec_witness :
    (((similarity_search vsOne "q" (1 * 2) 0).map keyOf).Nodup ∧
      ((bm25_search ⟨[], none⟩ "q" (1 * 2)).map keyOf).Nodup) ∧
    hybrid_search vsOne ⟨[], none⟩ "q" 1 (1 / 2) 0 =
      hybrid_search_spec (similarity_search vsOne "q" (1 * 2) 0)
        (bm25_search ⟨[], none⟩ "q" (1 * 2)) 1 (1 / 2) := by
  have h1 : ((similarity_search vsOne "q" (1 * 2) 0).map keyOf).Nodup := by
    show ((List.filter _ [(stubDoc, 1)]).map keyOf).Nodup
    rw [List.filter_cons]
    norm_num
  have h2 : ((bm25_search ⟨[], none⟩ "q" (1 * 2)).map keyOf).Nodup := by
    show (([] : List (Doc × ℚ)).map keyOf).Nodup
    simp
  exact ⟨⟨h1, h2⟩,
    c1_hybrid_search_fusion_spec vsOne ⟨[], none⟩ "q" 1 (1 / 2) 0 h1 h2⟩

lemma sortByScoreDesc_pairwise (l : List CombinedEntry) :
    List.Pairwise (fun a b : CombinedEntry => b.score ≤ a.score)
      (sortByScoreDesc l) := by
  have h := @List.sorted_mergeSort CombinedEntry
    (fun a b : CombinedEntry => decide (b.score ≤ a.score))
    (fun a b c hab hbc => by
      rw [decide_eq_true_iff] at hab hbc ⊢
      exact le_trans hbc hab)
    (fun a b => by
      rw [Bool.or_eq_true, decide_eq_true_iff, decide_eq_true_iff]
      exact le_total b.score a.score)
    l
  exact h.imp (fun hab => decide_eq_true_iff.mp hab)

lemma sortByScoreDesc_perm (l : List CombinedEntry) :
    (sortByScoreDesc l).Perm l :=
  List.mergeSort_perm l _

lemma normalize_pairwise_le {l : List (Doc × ℚ)}
    (h : List.Pairwise (fun p q : Doc × ℚ => q.2 ≤ p.2) l) :
    List.Pairwise (fun p q : Doc × ℚ => q.2 ≤ p.2) (normalize_scores l) := by
  match l with
  | [] => exact List.Pairwise.nil
  | a :: t =>
    rw [normalize_scores_cons_eq, List.pairwise_map]
    have hrpos := normalize_range_pos (show a :: t ≠ [] by simp)
    refine h.imp ?_
    intro p q hpq
    show (q.2 - _) / _ ≤ (p.2 - _) / _
    rw [div_le_div_iff_of_pos_right hrpos]
    exact sub_le_sub_right hpq _

lemma normalize_pairwise_lt {l : List (Doc × ℚ)}
    (h : List.Pairwise (fun p q : Doc × ℚ => q.2 < p.2) l) :
    List.Pairwise (fun p q : Doc × ℚ => q.2 < p.2) (normalize_scores l) := by
  match l with
  | [] => exact List.Pairwise.nil
  | a :: t =>
    rw [normalize_scores_cons_eq, List.pairwise_map]
    have hrpos := normalize_range_pos (show a :: t ≠ [] by simp)
    refine h.imp ?_
    intro p q hpq
    show (q.2 - _) / _ < (p.2 - _) / _
    rw [div_lt_div_iff_of_pos_right hrpos]
    exact sub_lt_sub_right hpq _

/-- Any subset of a strictly descending list, itself listed in strictly
descending order of the same measure, is a sublist. -/
lemma sublist_of_subset_of_strict (f : String → ℚ) :
    ∀ (B L : List String), (∀ x ∈ L, x ∈ B) →
      List.Pairwise (fun a b => f b < f a) L →
      List.Pairwise (fun a b => f b < f a) B →
      List.Sublist L B := by
  intro B
  induction B with
  | nil =>
    intro L hsub _ _
    cases L with
    | nil => exact List.Sublist.refl []
    | cons a t => exact absurd (hsub a (List.mem_cons_self a t)) (by simp)
  | cons b0 B2 ih =>
    intro L hsub hL hB
    cases L with
    | nil => exact List.nil_sublist _
    | cons a L2 =>
      by_cases hab : a = b0
      · subst hab
        apply List.Sublist.cons₂
        apply ih L2 ?_ (List.pairwise_cons.mp hL).2 (List.pairwise_cons.mp hB).2
        intro x hx
        have hxab : x ∈ a :: B2 := hsub x (List.mem_cons_of_mem a hx)
        rcases List.mem_cons.mp hxab with h | h
        · exfalso
          have := (List.pairwise_cons.mp hL).1 x hx
          rw [h] at this
          exact lt_irrefl _ this
        · exact h
      · apply List.Sublist.cons
        apply ih (a :: L2) ?_ hL (List.pairwise_cons.mp hB).2
        intro x hx
        have hxB := hsub x hx
        rcases List.mem_cons.mp hxB with h | h
        · exfalso
          have ha2 : a ∈ B2 := by
            rcases List.mem_cons.mp (hsub a (List.mem_cons_self a L2)) with
              h' | h'
            · exact absurd h' hab
            · exact h'
          have hfa : f a < f b0 := (List.pairwise_cons.mp hB).1 a ha2
          rcases List.mem_cons.mp hx with hxa | hxL2
          · exact hab (hxa ▸ h)
          · have hfx : f x < f a := (List.pairwise_cons.mp hL).1 x hxL2
            rw [h] at hfx
            exact lt_irrefl _ (lt_trans hfx hfa)
        · exact h

lemma combineScores_alpha_one (v b : List (Doc × ℚ))
    (hv : (v.map keyOf).Nodup) (hb : (b.map keyOf).Nodup) :
    combineScores v b 1 =
      v.map (fun p => ⟨keyOf p, p.1, p.2⟩)
      ++ (b.filter (fun p => decide (keyOf p ∉ v.map keyOf))).map
          (fun p => ⟨keyOf p, p.1, 0⟩) := by
  rw [combineScores_eq v b 1 hv hb]
  congr 1
  · apply List.map_congr_left
    intro p _
    have h : 1 * p.2 + (1 - 1) * normLookup b (keyOf p) = p.2 := by ring
    rw [h]
  · apply List.map_congr_left
    intro p _
    have h : (1 - 1) * p.2 = (0 : ℚ) := by ring
    rw [h]

lemma combineScores_alpha_zero (v b : List (Doc × ℚ))
    (hv : (v.map keyOf).Nodup) (hb : (b.map keyOf).Nodup) :
    combineScores v b 0 =
      v.map (fun p => ⟨keyOf p, p.1, normLookup b (keyOf p)⟩)
      ++ (b.filter (fun p => decide (keyOf p ∉ v.map keyOf))).map
          (fun p => ⟨keyOf p, p.1, p.2⟩) := by
  rw [combineScores_eq v b 0 hv hb]
  congr 1
  · apply List.map_congr_left
    intro p _
    have h : 0 * p.2 + (1 - 0) * normLookup b (keyOf p)
        = normLookup b (keyOf p) := by ring
    rw [h]
  · apply List.map_congr_left
    intro p _
    have h : (1 - 0) * p.2 = p.2 := by ring
    rw [h]

/-- With `alpha = 1`, hybrid fusion restricted to the semantic candidates
preserves pure semantic order. -/
lemma hybrid_alpha_one_semantic_order (vec bm : List (Doc × ℚ)) (k : Nat)
    (hv : (vec.map keyOf).Nodup) (hb : (bm.map keyOf).Nodup)
    (hsorted : List.Pairwise (fun p q : Doc × ℚ => q.2 ≤ p.2) vec) :
    List.Sublist
      (((hybrid_search_fuse vec bm k 1).map
        (fun p => p.1.page_content)).filter
        (fun t => decide (t ∈ vec.map keyOf)))
      (vec.map keyOf) := by
  have hv2 : ((normalize_scores vec).map keyOf).Nodup := by
    rw [normalize_scores_map_keyOf]; exact hv
  have hb2 : ((normalize_scores bm).map keyOf).Nodup := by
    rw [normalize_scores_map_keyOf]; exact hb
  set v := normalize_scores vec with hvdef
  set b := normalize_scores bm with hbdef
  set A : List CombinedEntry := v.map (fun p => ⟨keyOf p, p.1, p.2⟩) with hA
  set B : List CombinedEntry := (b.filter (fun p =>
      decide (keyOf p ∉ v.map keyOf))).map (fun p => ⟨keyOf p, p.1, 0⟩)
    with hB
  have hcomb : combineScores v b 1 = A ++ B :=
    combineScores_alpha_one v b hv2 hb2
  have hsortedAB : List.Pairwise
      (fun a b : CombinedEntry =>
        (decide (b.score ≤ a.score)) = true) (A ++ B) := by
    rw [List.pairwise_append]
    refine ⟨?_, ?_, ?_⟩
    · rw [hA, List.pairwise_map]
      exact (normalize_pairwise_le hsorted).imp
        (fun h => decide_eq_true h)
    · apply List.pairwise_of_forall_mem_list
      intro x hx y hy
      rw [hB] at hx hy
      obtain ⟨px, _, hpx⟩ := List.mem_map.mp hx
      obtain ⟨py, _, hpy⟩ := List.mem_map.mp hy
      have hxs : x.score = 0 := by rw [← hpx]
      have hys : y.score = 0 := by rw [← hpy]
      exact decide_eq_true (by rw [hxs, hys])
    · intro x hx y hy
      rw [hA] at hx
      rw [hB] at hy
      obtain ⟨px, hpxv, hpx⟩ := List.mem_map.mp hx
      obtain ⟨py, _, hpy⟩ := List.mem_map.mp hy
      have hxs : x.score = px.2 := by rw [← hpx]
      have hys : y.score = 0 := by rw [← hpy]
      have hpos : 0 ≤ px.2 := (normalize_mem_bounds hpxv).1
      exact decide_eq_true (by rw [hxs, hys]; exact hpos)
  have hsort : sortByScoreDesc (A ++ B) = A ++ B :=
    List.mergeSort_of_sorted hsortedAB
  have hfuse : hybrid_search_fuse vec bm k 1
      = ((A ++ B).take k).map (fun e => (e.doc, e.score)) := by
    simp only [hybrid_search_fuse, ← hvdef, ← hbdef, hcomb, hsort]
  rw [hfuse, List.map_map]
  have hACmap : ∀ l : List CombinedEntry,
      l.map ((fun p : Doc × ℚ => p.1.page_content) ∘
        (fun e : CombinedEntry => (e.doc, e.score)))
      = l.map (fun e => e.doc.page_content) := by
    intro l
    apply List.map_congr_left
    intro e _
    rfl
  rw [hACmap, List.take_append_eq_append_take, List.map_append,
    List.filter_append]
  have hXmap : (A.take k).map (fun e => e.doc.page_content)
      = (vec.map keyOf).take k := by
    rw [List.map_take, hA, List.map_map]
    have : v.map ((fun e : CombinedEntry => e.doc.page_content) ∘
        (fun p : Doc × ℚ => (⟨keyOf p, p.1, p.2⟩ : CombinedEntry)))
        = v.map keyOf := by
      apply List.map_congr_left
      intro p _
      rfl
    rw [this, hvdef, normalize_scores_map_keyOf]
  have hX : ((A.take k).map (fun e => e.doc.page_content)).filter
      (fun t => decide (t ∈ vec.map keyOf))
      = (vec.map keyOf).take k := by
    rw [hXmap]
    apply List.filter_eq_self.mpr
    intro t ht
    exact decide_eq_true ((List.take_sublist k _).mem ht)
  have hY : ((B.take (k - A.length)).map
      (fun e => e.doc.page_content)).filter
      (fun t => decide (t ∈ vec.map keyOf)) = [] := by
    apply List.filter_eq_nil_iff.mpr
    intro t ht
    obtain ⟨e, he, het⟩ := List.mem_map.mp ht
    have heB : e ∈ B := (List.take_sublist _ _).mem he
    rw [hB] at heB
    obtain ⟨p, hp, hpe⟩ := List.mem_map.mp heB
    obtain ⟨hpb, hpf⟩ := List.mem_filter.mp hp
    have hnv : keyOf p ∉ v.map keyOf := by simpa using hpf
    have htp : t = keyOf p := by
      rw [← het, ← hpe]
      rfl
    rw [htp]
    simp only [decide_eq_true_eq]
    rw [hvdef, normalize_scores_map_keyOf] at hnv
    exact hnv
  rw [hX, hY, List.append_nil]
  exact List.take_sublist k _

/-- With `alpha = 0` and strictly decreasing lexical scores, hybrid fusion
restricted to the lexical candidates preserves pure lexical order. -/
lemma hybrid_alpha_zero_lexical_order (vec bm : List (Doc × ℚ)) (k : Nat)
    (hv : (vec.map keyOf).Nodup) (hb : (bm.map keyOf).Nodup)
    (hstrict : List.Pairwise (fun p q : Doc × ℚ => q.2 < p.2) bm) :
    List.Sublist
      (((hybrid_search_fuse vec bm k 0).map
        (fun p => p.1.page_content)).filter
        (fun t => decide (t ∈ bm.map keyOf)))
      (bm.map keyOf) := by
  have hv2 : ((normalize_scores vec).map keyOf).Nodup := by
    rw [normalize_scores_map_keyOf]; exact hv
  have hb2 : ((normalize_scores bm).map keyOf).Nodup := by
    rw [normalize_scores_map_keyOf]; exact hb
  set v := normalize_scores vec with hvdef
  set b := normalize_scores bm with hbdef
  set f : String → ℚ := normLookup b with hf
  set A : List CombinedEntry :=
    v.map (fun p => ⟨keyOf p, p.1, normLookup b (keyOf p)⟩) with hA
  set bf : List (Doc × ℚ) :=
    b.filter (fun p => decide (keyOf p ∉ v.map keyOf)) with hbf
  set B : List CombinedEntry := bf.map (fun p => ⟨keyOf p, p.1, p.2⟩) with hB
  have hcomb : combineScores v b 0 = A ++ B :=
    combineScores_alpha_zero v b hv2 hb2
  set B0 : List String := bm.map keyOf with hB0
  have hB0b : b.map keyOf = B0 := by
    rw [hbdef, normalize_scores_map_keyOf]
  -- keys and scores of the combined entries
  have hABkey : ∀ e ∈ A ++ B, e.key = e.doc.page_content := by
    intro e he
    rcases List.mem_append.mp he with h | h
    · obtain ⟨p, _, hpe⟩ := List.mem_map.mp (hA ▸ h)
      rw [← hpe]
      rfl
    · obtain ⟨p, _, hpe⟩ := List.mem_map.mp (hB ▸ h)
      rw [← hpe]
      rfl
  have hABscore : ∀ e ∈ A ++ B, e.score = f e.key := by
    intro e he
    rcases List.mem_append.mp he with h | h
    · obtain ⟨p, _, hpe⟩ := List.mem_map.mp (hA ▸ h)
      rw [← hpe]
    · obtain ⟨p, hp, hpe⟩ := List.mem_map.mp (hB ▸ h)
      have hpb : p ∈ b := List.mem_of_mem_filter (hbf ▸ hp)
      rw [← hpe]
      show p.2 = f (keyOf p)
      rw [hf, normLookup_self hb2 p hpb]
  have hABnodup : ((A ++ B).map (fun e => e.key)).Nodup := by
    rw [List.map_append]
    have hAkeys : A.map (fun e => e.key) = v.map keyOf := by
      rw [hA, List.map_map]
      rfl
    have hBkeys : B.map (fun e => e.key) = bf.map keyOf := by
      rw [hB, List.map_map]
      rfl
    rw [hAkeys, hBkeys]
    apply List.Nodup.append hv2
    · exact ((List.filter_sublist b).map keyOf).nodup hb2
    · intro x hxv hxbf
      obtain ⟨p, hp, hpx⟩ := List.mem_map.mp hxbf
      have hpf := (List.mem_filter.mp (hbf ▸ hp)).2
      rw [decide_eq_true_eq] at hpf
      exact hpf (hpx ▸ hxv)
  -- the lexical reference order is strictly decreasing under f
  have hB0strict : List.Pairwise (fun s t => f t < f s) B0 := by
    rw [← hB0b, List.pairwise_map]
    have hbstrict : List.Pairwise (fun p q : Doc × ℚ => q.2 < p.2) b :=
      hbdef ▸ normalize_pairwise_lt hstrict
    have hmem : ∀ {p q : Doc × ℚ}, p ∈ b → q ∈ b → q.2 < p.2 →
        f (keyOf q) < f (keyOf p) := by
      intro p q hp hq hlt
      rw [hf, normLookup_self hb2 p hp, normLookup_self hb2 q hq]
      exact hlt
    exact hbstrict.imp_of_mem (fun hp hq h => hmem hp hq h)
  have hB0ne : ∀ x ∈ B0, ∀ y ∈ B0, x ≠ y → f x ≠ f y := by
    have hsym : Symmetric (fun x y : String => f x ≠ f y) := by
      intro x y h
      exact (Ne.symm h)
    have hpw : List.Pairwise (fun x y : String => f x ≠ f y) B0 :=
      hB0strict.imp (fun h => (ne_of_lt h).symm)
    intro x hx y hy hxy
    exact hpw.forall hsym hx hy hxy
  -- sort and restrict
  set sorted := sortByScoreDesc (A ++ B) with hsorted
  have hperm : sorted.Perm (A ++ B) := sortByScoreDesc_perm (A ++ B)
  have hpair : List.Pairwise (fun a b : CombinedEntry => b.score ≤ a.score)
      sorted := sortByScoreDesc_pairwise (A ++ B)
  have hSkey : ∀ e ∈ sorted, e.key = e.doc.page_content :=
    fun e he => hABkey e (hperm.mem_iff.mp he)
  have hSscore : ∀ e ∈ sorted, e.score = f e.key :=
    fun e he => hABscore e (hperm.mem_iff.mp he)
  have hSnodup : (sorted.map (fun e => e.key)).Nodup :=
    (hperm.map (fun e => e.key)).symm.nodup hABnodup
  have hfuse : hybrid_search_fuse vec bm k 0
      = (sorted.take k).map (fun e => (e.doc, e.score)) := by
    simp only [hybrid_search_fuse, ← hvdef, ← hbdef, hcomb, hsorted]
  rw [hfuse, List.map_map]
  have hmapdoc : (sorted.take k).map
      ((fun p : Doc × ℚ => p.1.page_content) ∘
        (fun e : CombinedEntry => (e.doc, e.score)))
      = (sorted.take k).map (fun e => e.key) := by
    apply List.map_congr_left
    intro e he
    have heS : e ∈ sorted := (List.take_sublist k sorted).mem he
    show e.doc.page_content = e.key
    exact (hSkey e heS).symm
  rw [hmapdoc, List.filter_map]
  set E : List CombinedEntry := (sorted.take k).filter
    ((fun t => decide (t ∈ B0)) ∘ (fun e : CombinedEntry => e.key)) with hE
  have hEsub : E.Sublist sorted :=
    (List.filter_sublist _).trans (List.take_sublist k sorted)
  have hEpair : List.Pairwise
      (fun a b : CombinedEntry => b.score ≤ a.score) E :=
    List.Pairwise.sublist hEsub hpair
  have hEkeyNodup : (E.map (fun e => e.key)).Nodup :=
    (hEsub.map (fun e => e.key)).nodup hSnodup
  have hEkeysNe : List.Pairwise
      (fun a b : CombinedEntry => a.key ≠ b.key) E :=
    List.pairwise_map.mp hEkeyNodup
  have hEmem : ∀ e ∈ E, e.key ∈ B0 ∧ e.score = f e.key := by
    intro e he
    obtain ⟨heT, hef⟩ := List.mem_filter.mp (hE ▸ he)
    refine ⟨?_, hSscore e ((List.take_sublist k sorted).mem heT)⟩
    have : decide (e.key ∈ B0) = true := hef
    exact decide_eq_true_eq.mp this
  have hstrictE : List.Pairwise (fun x y : String => f y < f x)
      (E.map (fun e => e.key)) := by
    rw [List.pairwise_map]
    refine (hEpair.and hEkeysNe).imp_of_mem ?_
    intro a c ha hc hrel
    obtain ⟨haB, haf⟩ := hEmem a ha
    obtain ⟨hcB, hcf⟩ := hEmem c hc
    have hle : f c.key ≤ f a.key := by
      rw [← haf, ← hcf]
      exact hrel.1
    have hne : f a.key ≠ f c.key := hB0ne a.key haB c.key hcB hrel.2
    exact lt_of_le_of_ne hle (Ne.symm hne)
  have hsubset : ∀ x ∈ E.map (fun e => e.key), x ∈ B0 := by
    intro x hx
    obtain ⟨e, he, hex⟩ := List.mem_map.mp hx
    exact hex ▸ (hEmem e he).1
  exact sublist_of_subset_of_strict f B0 (E.map (fun e => e.key))
    hsubset hstrictE hB0strict

/-- **C9 (amended).** Restricted to the candidates the fusion considered:
with `alpha = 1` the hybrid ranking preserves pure semantic order (given
candidate lists with pairwise-distinct texts and a semantic list sorted by
descending score); with `alpha = 0` it preserves pure lexical order
**provided the lexical scores are strictly decreasing** — on lexical ties
the fused order follows the semantic-first insertion order instead of the
lexical order (see the counterexample). -/
theorem c9_amended_fusion_weight_extremes :
    (∀ (vec bm : List (Doc × ℚ)) (k : Nat),
      (vec.map keyOf).Nodup → (bm.map keyOf).Nodup →
      List.Pairwise (fun p q : Doc × ℚ => q.2 ≤ p.2) vec →
      List.Sublist
        (((hybrid_search_fuse vec bm k 1).map
          (fun p => p.1.page_content)).filter
          (fun t => decide (t ∈ vec.map keyOf)))
        (vec.map keyOf)) ∧
    (∀ (vec bm : List (Doc × ℚ)) (k : Nat),
      (vec.map keyOf).Nodup → (bm.map keyOf).Nodup →
      List.Pairwise (fun p q : Doc × ℚ => q.2 < p.2) bm →
      List.Sublist
        (((hybrid_search_fuse vec bm k 0).map
          (fun p => p.1.page_content)).filter
          (fun t => decide (t ∈ bm.map keyOf)))
        (bm.map keyOf)) :=
  ⟨hybrid_alpha_one_semantic_order, hybrid_alpha_zero_lexical_order⟩

/-- Witness for the amended C9 at concrete one-candidate lists. -/
theorem c9_amended_fusion_weight_extremes_witness :
    (([(stubDoc, (1 : ℚ))].map keyOf).Nodup ∧
      (([] : List (Doc × ℚ)).map keyOf).Nodup) ∧
    List.Sublist
      (((hybrid_search_fuse [(stubDoc, 1)] [] 1 1).map
        (fun p => p.1.page_content)).filter
        (fun t => decide (t ∈ [(stubDoc, (1 : ℚ))].map keyOf)))
      ([(stubDoc, (1 : ℚ))].map keyOf) := by
  have h1 : ([(stubDoc, (1 : ℚ))].map keyOf).Nodup := by simp
  have h2 : (([] : List (Doc × ℚ)).map keyOf).Nodup := by simp
  exact ⟨⟨h1, h2⟩,
    c9_amended_fusion_weight_extremes.1 [(stubDoc, 1)] [] 1 h1 h2
      (List.pairwise_singleton _ _)⟩

lemma argsortAsc_fives : argsortAsc [(5 : ℚ), 5] = [0, 1] := by
  unfold argsortAsc
  have hr : List.range ([(5 : ℚ), 5]).length = [0, 1] := by decide
  rw [hr]
  apply List.mergeSort_of_sorted
  refine List.pairwise_cons.mpr ⟨?_, List.pairwise_singleton _ _⟩
  intro j hj
  rw [List.mem_singleton] at hj
  subst hj
  decide

lemma bm25_search_rC : bm25_search rC "q" (2 * 2) = [(docB, 5), (docA, 5)] := by
  show (bm25_top_indices [(5 : ℚ), 5] (2 * 2)).filterMap _ = _
  have htop : bm25_top_indices [(5 : ℚ), 5] (2 * 2) = [1, 0] := by
    unfold bm25_top_indices
    rw [argsortAsc_fives]
    rfl
  rw [htop]
  simp only [List.filterMap]
  norm_num [rC, List.getD]

lemma similarity_search_vsC :
    similarity_search vsC "q" (2 * 2) 0 = [(docA, 9 / 10), (docB, 8 / 10)] := by
  show List.filter _ [(docA, 9 / 10), (docB, 8 / 10)] = _
  rw [List.filter_cons, List.filter_cons]
  norm_num

lemma hybrid_search_vsC_rC :
    hybrid_search vsC rC "q" 2 0 0 = [(docA, 0), (docB, 0)] := by
  show hybrid_search_fuse (similarity_search vsC "q" (2 * 2) 0)
    (bm25_search rC "q" (2 * 2)) 2 0 = _
  rw [similarity_search_vsC, bm25_search_rC]
  have hnv : normalize_scores [(docA, 9 / 10), (docB, 8 / 10)]
      = [(docA, 1), (docB, 0)] := by
    rw [normalize_scores_cons_eq]
    norm_num [pyMax, pyMin, max_def, min_def]
  have hnb : normalize_scores [(docB, (5 : ℚ)), (docA, 5)]
      = [(docB, 0), (docA, 0)] := by
    rw [normalize_scores_cons_eq]
    norm_num [pyMax, pyMin, max_def, min_def]
  have hcomb : combineScores [(docA, 1), (docB, 0)] [(docB, 0), (docA, 0)] 0
      = [⟨"A", docA, 0⟩, ⟨"B", docB, 0⟩] := by
    norm_num [combineScores, dictSet, dictAdd, List.foldl, List.any,
      docA, docB]
    decide
  have hsort : sortByScoreDesc [⟨"A", docA, 0⟩, ⟨"B", docB, 0⟩]
      = [⟨"A", docA, 0⟩, ⟨"B", docB, 0⟩] := by
    apply List.mergeSort_of_sorted
    refine List.pairwise_cons.mpr ⟨?_, List.pairwise_singleton _ _⟩
    intro e he
    rw [List.mem_singleton] at he
    subst he
    norm_num
  simp only [hybrid_search_fuse, hnv, hnb, hcomb, hsort]
  rfl

/-- **C9 counterexample.** With tied lexical scores, `hybrid_search` at
`alpha = 0` orders the tied lexical candidates by the semantic-first
insertion order (`A` before `B`), not by the pure lexical order (`B` before
`A`): the restriction of the hybrid ranking to the lexical candidates is not
a sublist of the lexical ranking. -/
theorem c9_counterexample :
    bm25_search rC "q" (2 * 2) = [(docB, 5), (docA, 5)] ∧
    hybrid_search vsC rC "q" 2 0 0 = [(docA, 0), (docB, 0)] ∧
    ¬ List.Sublist
        (((hybrid_search vsC rC "q" 2 0 0).map
          (fun p => p.1.page_content)).filter
          (fun t => decide (t ∈ (bm25_search rC "q" (2 * 2)).map keyOf)))
        ((bm25_search rC "q" (2 * 2)).map keyOf) := by
  refine ⟨bm25_search_rC, hybrid_search_vsC_rC, ?_⟩
  rw [bm25_search_rC, hybrid_search_vsC_rC]
  intro hcon
  have h1 : ([(docA, (0 : ℚ)), (docB, 0)].map
      (fun p => p.1.page_content)).filter
      (fun t => decide (t ∈ [(docB, (5 : ℚ)), (docA, 5)].map keyOf))
      = ["A", "B"] := by
    decide
  have h2 : [(docB, (5 : ℚ)), (docA, 5)].map keyOf = ["B", "A"] := by decide
  rw [h1, h2] at hcon
  exact absurd hcon (by decide)

lemma bm25_search_pos (r : HybridRetriever) (q : String) (k : Nat) :
    ∀ p ∈ bm25_search r q k, 0 < p.2 := by
  intro p hp
  cases hbm : r.bm25 with
  | none => simp [bm25_search, hbm] at hp
  | some idx =>
    simp only [bm25_search, hbm] at hp
    obtain ⟨i, _, hi⟩ := List.mem_filterMap.mp hp
    by_cases hc : 0 < (idx.getScores q).getD i 0
    · rw [if_pos hc] at hi
      cases hi
      exact hc
    · rw [if_neg hc] at hi
      cases hi

lemma normLookup_normalize_bounds (bm : List (Doc × ℚ)) (key : String) :
    0 ≤ normLookup (normalize_scores bm) key ∧
      normLookup (normalize_scores bm) key ≤ 1 := by
  unfold normLookup
  cases hfind : (normalize_scores bm).find?
      (fun p => p.1.page_content == key) with
  | none => norm_num
  | some pr => exact normalize_mem_bounds (List.mem_of_find?_eq_some hfind)

/-- All combined scores of the fusion lie in [0,1] when `alpha` does and the
candidate lists carry pairwise-distinct texts. -/
lemma hybrid_fuse_mem_bounds (vec bm : List (Doc × ℚ)) (k : Nat) (alpha : ℚ)
    (h0 : 0 ≤ alpha) (h1 : alpha ≤ 1)
    (hv : (vec.map keyOf).Nodup) (hb : (bm.map keyOf).Nodup) :
    ∀ p ∈ hybrid_search_fuse vec bm k alpha, 0 ≤ p.2 ∧ p.2 ≤ 1 := by
  intro p hp
  have hv2 : ((normalize_scores vec).map keyOf).Nodup := by
    rw [normalize_scores_map_keyOf]; exact hv
  have hb2 : ((normalize_scores bm).map keyOf).Nodup := by
    rw [normalize_scores_map_keyOf]; exact hb
  set v := normalize_scores vec with hvdef
  set b := normalize_scores bm with hbdef
  have hp2 : p ∈ ((sortByScoreDesc (combineScores v b alpha)).take k).map
      (fun e => (e.doc, e.score)) := hp
  obtain ⟨e, he, hep⟩ := List.mem_map.mp hp2
  have hescore : p.2 = e.score := by rw [← hep]
  have heS : e ∈ sortByScoreDesc (combineScores v b alpha) :=
    (List.take_sublist k _).mem he
  have heC : e ∈ combineScores v b alpha :=
    (sortByScoreDesc_perm _).mem_iff.mp heS
  rw [combineScores_eq v b alpha hv2 hb2] at heC
  rw [hescore]
  rcases List.mem_append.mp heC with h | h
  · obtain ⟨q, hq, hqe⟩ := List.mem_map.mp h
    have hqb := normalize_mem_bounds hq
    have hlb := normLookup_normalize_bounds bm (keyOf q)
    rw [← hbdef] at hlb
    have hes : e.score = alpha * q.2 + (1 - alpha) * normLookup b (keyOf q) := by
      rw [← hqe]
    rw [hes]
    constructor
    · have t1 : 0 ≤ alpha * q.2 := mul_nonneg h0 hqb.1
      have t2 : 0 ≤ (1 - alpha) * normLookup b (keyOf q) :=
        mul_nonneg (by linarith) hlb.1
      linarith
    · nlinarith [hqb.2, hlb.2, hqb.1, hlb.1]
  · obtain ⟨q, hq, hqe⟩ := List.mem_map.mp h
    have hqb : q ∈ b := List.mem_of_mem_filter hq
    have hqbb := normalize_mem_bounds (hbdef ▸ hqb)
    have hes : e.score = (1 - alpha) * q.2 := by rw [← hqe]
    rw [hes]
    constructor
    · exact mul_nonneg (by linarith) hqbb.1
    · nlinarith [hqbb.2, hqbb.1]

lemma hybrid_search_vs10 :
    hybrid_search vs10 rEmptyR "q" 2 (1 / 2) 0 = [(docA, 1 / 2), (docB, 0)] := by
  show hybrid_search_fuse (similarity_search vs10 "q" (2 * 2) 0)
    (bm25_search rEmptyR "q" (2 * 2)) 2 (1 / 2) = _
  have hsim : similarity_search vs10 "q" (2 * 2) 0 = [(docA, 10), (docB, 5)] := by
    show List.filter _ [(docA, 10), (docB, 5)] = _
    rw [List.filter_cons, List.filter_cons]
    norm_num
  have hbm : bm25_search rEmptyR "q" (2 * 2) = [] := rfl
  rw [hsim, hbm]
  have hnv : normalize_scores [(docA, (10 : ℚ)), (docB, 5)]
      = [(docA, 1), (docB, 0)] := by
    rw [normalize_scores_cons_eq]
    norm_num [pyMax, pyMin, max_def, min_def]
  have hcomb : combineScores [(docA, 1), (docB, 0)] [] (1 / 2)
      = [⟨"A", docA, 1 / 2⟩, ⟨"B", docB, 0⟩] := by
    norm_num [combineScores, dictSet, List.foldl, List.any, docA, docB]
    decide
  have hsort : sortByScoreDesc [⟨"A", docA, 1 / 2⟩, ⟨"B", docB, 0⟩]
      = [⟨"A", docA, 1 / 2⟩, ⟨"B", docB, 0⟩] := by
    apply List.mergeSort_of_sorted
    refine List.pairwise_cons.mpr ⟨?_, List.pairwise_singleton _ _⟩
    intro e he
    rw [List.mem_singleton] at he
    subst he
    norm_num
  have hnb : normalize_scores ([] : List (Doc × ℚ)) = [] := rfl
  simp only [hybrid_search_fuse, hnv, hnb, hcomb, hsort]
  rfl

/-- **C10 (amended).** `hybrid_search` applies no positive-score filter: a
chunk appearing in only one candidate list with that list's minimum raw
score normalizes to 0, receives combined score exactly 0, and still appears
in the returned top-k — unlike `bm25_search`, whose every returned score is
strictly positive; and provided each candidate list carries
pairwise-distinct texts (and `alpha` lies in [0,1]), every combined score
lies in [0,1].  Without the distinct-text proviso the bound fails (see the
counterexample). -/
theorem c10_amended_no_positive_filter :
    (hybrid_search vs10 rEmptyR "q" 2 (1 / 2) 0 = [(docA, 1 / 2), (docB, 0)] ∧
      (docB, (0 : ℚ)) ∈ hybrid_search vs10 rEmptyR "q" 2 (1 / 2) 0) ∧
    (∀ (r : HybridRetriever) (q : String) (k : Nat),
      ∀ p ∈ bm25_search r q k, 0 < p.2) ∧
    (∀ (vec bm : List (Doc × ℚ)) (k : Nat) (alpha : ℚ),
      0 ≤ alpha → alpha ≤ 1 →
      (vec.map keyOf).Nodup → (bm.map keyOf).Nodup →
      ∀ p ∈ hybrid_search_fuse vec bm k alpha, 0 ≤ p.2 ∧ p.2 ≤ 1) := by
  refine ⟨⟨hybrid_search_vs10, ?_⟩, bm25_search_pos, hybrid_fuse_mem_bounds⟩
  rw [hybrid_search_vs10]
  simp

/-- Witness for the amended C10 bounds at concrete inputs. -/
theorem c10_amended_no_positive_filter_witness :
    ((0 : ℚ) ≤ 1 / 2 ∧ (1 / 2 : ℚ) ≤ 1 ∧
      ([(docA, (10 : ℚ))].map keyOf).Nodup ∧
      (([] : List (Doc × ℚ)).map keyOf).Nodup) ∧
    ∀ p ∈ hybrid_search_fuse [(docA, 10)] [] 1 (1 / 2),
      0 ≤ p.2 ∧ p.2 ≤ 1 := by
  have h0 : (0 : ℚ) ≤ 1 / 2 := by norm_num
  have h1 : (1 / 2 : ℚ) ≤ 1 := by norm_num
  have h2 : ([(docA, (10 : ℚ))].map keyOf).Nodup := by simp
  have h3 : (([] : List (Doc × ℚ)).map keyOf).Nodup := by simp
  exact ⟨⟨h0, h1, h2, h3⟩,
    c10_amended_no_positive_filter.2.2 [(docA, 10)] [] 1 (1 / 2) h0 h1 h2 h3⟩

lemma argsortAsc_oneFiveFive : argsortAsc [(1 : ℚ), 5, 5] = [0, 1, 2] := by
  unfold argsortAsc
  have hr : List.range ([(1 : ℚ), 5, 5]).length = [0, 1, 2] := by decide
  rw [hr]
  apply List.mergeSort_of_sorted
  refine List.pairwise_cons.mpr ⟨?_, List.pairwise_cons.mpr
    ⟨?_, List.pairwise_singleton _ _⟩⟩
  · intro j hj
    rcases List.mem_cons.mp hj with h | h
    · subst h; decide
    · rw [List.mem_singleton] at h; subst h; decide
  · intro j hj
    rw [List.mem_singleton] at hj
    subst hj
    decide

lemma bm25_search_r10 :
    bm25_search r10 "q" (2 * 2) = [(docA2, 5), (docA, 5), (docB, 1)] := by
  show (bm25_top_indices [(1 : ℚ), 5, 5] (2 * 2)).filterMap _ = _
  have htop : bm25_top_indices [(1 : ℚ), 5, 5] (2 * 2) = [2, 1, 0] := by
    unfold bm25_top_indices
    rw [argsortAsc_oneFiveFive]
    rfl
  rw [htop]
  simp only [List.filterMap]
  norm_num [r10, List.getD]

/-- Both duplicate-text chunks of the `r10` corpus normalize to exactly 1:
the lexical normalized score of the text `A` is unambiguous. -/
lemma normalize_scores_r10 :
    normalize_scores [(docA2, (5 : ℚ)), (docA, 5), (docB, 1)]
      = [(docA2, 1), (docA, 1), (docB, 0)] := by
  rw [normalize_scores_cons_eq]
  norm_num [pyMax, pyMin, max_def, min_def]

lemma hybrid_search_r10 :
    hybrid_search vsEmptyV r10 "q" 2 0 0 = [(docA2, 2), (docB, 0)] := by
  show hybrid_search_fuse (similarity_search vsEmptyV "q" (2 * 2) 0)
    (bm25_search r10 "q" (2 * 2)) 2 0 = _
  have hsim : similarity_search vsEmptyV "q" (2 * 2) 0 = [] := rfl
  rw [hsim, bm25_search_r10]
  have hnv : normalize_scores ([] : List (Doc × ℚ)) = [] := rfl
  have hnb := normalize_scores_r10
  have hcomb : combineScores [] [(docA2, 1), (docA, 1), (docB, 0)] 0
      = [⟨"A", docA2, 2⟩, ⟨"B", docB, 0⟩] := by
    norm_num [combineScores, dictSet, dictAdd, List.foldl, List.any,
      docA, docA2, docB]
    decide
  have hsort : sortByScoreDesc [⟨"A", docA2, 2⟩, ⟨"B", docB, 0⟩]
      = [⟨"A", docA2, 2⟩, ⟨"B", docB, 0⟩] := by
    apply List.mergeSort_of_sorted
    refine List.pairwise_cons.mpr ⟨?_, List.pairwise_singleton _ _⟩
    intro e he
    rw [List.mem_singleton] at he
    subst he
    norm_num
  simp only [hybrid_search_fuse, hnv, hnb, hcomb, hsort]
  rfl

/-- **C1 counterexample.** On a corpus with two chunks of identical text
`A` (both of which normalize to exactly 1, so the text's lexical normalized
score is well defined and equals 1), `hybrid_search` with `alpha = 0` and no
semantic results returns the chunk with combined score 2, not the claimed
blend `alpha * semantic_norm + (1 - alpha) * lexical_norm = 1`: the dict
update fires once per occurrence, so the claim's formula fails on
duplicate-text candidate lists. -/
theorem c1_counterexample :
    hybrid_search vsEmptyV r10 "q" 2 0 0 = [(docA2, 2), (docB, 0)] ∧
    (0 : ℚ) * normLookup (normalize_scores
        (similarity_search vsEmptyV "q" (2 * 2) 0)) docA2.page_content
      + (1 - 0) * normLookup (normalize_scores
        (bm25_search r10 "q" (2 * 2))) docA2.page_content = 1 ∧
    ¬ ((2 : ℚ) = 1) := by
  refine ⟨hybrid_search_r10, ?_, by norm_num⟩
  have h1 : normLookup (normalize_scores
      (similarity_search vsEmptyV "q" (2 * 2) 0)) docA2.page_content = 0 := rfl
  have h2 : normLookup (normalize_scores
      (bm25_search r10 "q" (2 * 2))) docA2.page_content = 1 := by
    rw [bm25_search_r10, normalize_scores_r10]
    unfold normLookup
    rw [List.find?_cons_of_pos _ (by decide)]
  rw [h1, h2]
  norm_num

/-- **C10 counterexample.** With two corpus chunks sharing the same text,
the fusion's `+=` update fires twice for that text and `hybrid_search`
returns a combined score of 2, outside [0,1]: the claim's bound does not
hold without a distinct-text proviso. -/
theorem c10_counterexample :
    hybrid_search vsEmptyV r10 "q" 2 0 0 = [(docA2, 2), (docB, 0)] ∧
    (docA2, (2 : ℚ)) ∈ hybrid_search vsEmptyV r10 "q" 2 0 0 ∧
    ¬ ((2 : ℚ) ≤ 1) := by
  refine ⟨hybrid_search_r10, ?_, by norm_num⟩
  rw [hybrid_search_r10]
  simp

end RagAi
